import Mathlib

/-!
Verification development for the smart-doc document segmentation and
retrieval pipeline.  The definitions below are a shallow embedding of the
Python sources:

* `src/core/parsers/base.py`      — `ContentType`, `ParsedSection`, `ParsedDocument`
* `src/core/chunkers/base.py`     — `Chunk`, `Chunk.to_payload`, `_count_tokens`
* `src/core/chunkers/semantic_chunker.py`  — `SemanticChunker`
* `src/core/chunkers/structure_chunker.py` — `StructureChunker`
* `src/core/parsers/markdown_parser.py`    — heading-hierarchy tracking
* `src/core/retrievers/hybrid_retriever.py`    — reciprocal rank fusion
* `src/core/retrievers/cross_ref_retriever.py` — cross-reference expansion
* `src/core/extractors/table_extractor.py`     — table-schema extraction

Python strings are modeled as Lean `String` (both count Unicode scalar
values, so `len` agrees with `String.length`); Python `int` counters as
`Nat`; Python `float` scores as `ℚ` (exact arithmetic); Python dicts as
insertion-ordered association lists.  The external collaborators
(embedding service, vector index) are abstracted as function parameters.
-/

set_option autoImplicit false

namespace SmartDoc

/-! ## Data model (`src/core/parsers/base.py`) -/

/-- The `ContentType` enum from `parsers/base.py` (a `str`-valued enum). -/
inductive ContentType where
  | text
  | table
  | codeBlock
  | listBlock
  | heading
  deriving DecidableEq, Repr

/-- The string `.value` of each enum member. -/
def ContentType.value : ContentType → String
  | .text => "text"
  | .table => "table"
  | .codeBlock => "code_block"
  | .listBlock => "list"
  | .heading => "heading"

/-- Values stored in Python metadata dicts / payloads.  Only the shapes
actually stored by the code are represented. -/
inductive PValue where
  | str (s : String)
  | num (n : Int)
  | strList (l : List String)
  deriving DecidableEq, Repr

/-- The `ParsedSection` dataclass from `parsers/base.py`. -/
structure ParsedSection where
  content : String
  contentType : ContentType
  headingLevel : Option Nat := none
  headingText : Option String := none
  sectionHierarchy : List String := []
  pageNumber : Option Nat := none
  codeLanguage : Option String := none
  deriving DecidableEq, Repr

/-- The `ParsedDocument` dataclass from `parsers/base.py` (the `file_path`,
`raw_text` and `metadata` fields are irrelevant to every claim and are
not carried). -/
structure ParsedDocument where
  filename : String
  sections : List ParsedSection
  deriving DecidableEq, Repr

/-! ## Chunk data structure (`src/core/chunkers/base.py`) -/

/-- The `Chunk` dataclass from `chunkers/base.py`.  `chunk_id` is generated
by `Chunk.create` from a fresh uuid; none of the claims depend on its
value, so chunker-created chunks carry an empty placeholder id. -/
structure Chunk where
  chunkId : String
  documentId : String
  content : String
  contentType : ContentType
  sectionHierarchy : List String := []
  metadata : List (String × PValue) := []
  deriving DecidableEq, Repr

/-- The `Chunk.create` factory (uuid generation not modeled; see `Chunk`). -/
def Chunk.create (documentId content : String) (contentType : ContentType)
    (sectionHierarchy : List String) (metadata : List (String × PValue)) : Chunk :=
  { chunkId := ""
    documentId := documentId
    content := content
    contentType := contentType
    sectionHierarchy := sectionHierarchy
    metadata := metadata }

/-- The `BaseChunker._count_tokens`: `len(text) // 3`. -/
def countTokens (s : String) : Nat := s.length / 3

/-- Sum of the token estimates of a list of strings. -/
def sumTokens (l : List String) : Nat := (l.map countTokens).sum

/-! ## Python string helpers

`pyStrip` is Python's `str.strip()`, `pySplitWs` is `str.split()` (split
on whitespace runs, dropping empty pieces).  `Char.isWhitespace` agrees
with Python's notion of whitespace on all characters appearing in this
development. -/

def pyStrip (s : String) : String :=
  String.mk (((s.data.dropWhile Char.isWhitespace).reverse.dropWhile Char.isWhitespace).reverse)

def pySplitWsAux : List Char → List Char → List String
  | [], cur => if cur = [] then [] else [String.mk cur.reverse]
  | c :: cs, cur =>
    if c.isWhitespace then
      if cur = [] then pySplitWsAux cs []
      else String.mk cur.reverse :: pySplitWsAux cs []
    else pySplitWsAux cs (c :: cur)

def pySplitWs (s : String) : List String := pySplitWsAux s.data []

/-- Python `str.split(sep)` for a one-character separator (always
returns at least one piece; empty pieces are kept). -/
def splitOnCharAux (sep : Char) : List Char → List Char → List String
  | [], cur => [String.mk cur.reverse]
  | c :: cs, cur =>
    if c = sep then String.mk cur.reverse :: splitOnCharAux sep cs []
    else splitOnCharAux sep cs (c :: cur)

def splitOnChar (sep : Char) (s : String) : List String := splitOnCharAux sep s.data []

/-- The `text.split("\n")`. -/
def splitLines (s : String) : List String := splitOnChar '\n' s

/-! ## SemanticChunker (`src/core/chunkers/semantic_chunker.py`) -/

/-- Configuration of `SemanticChunker.__init__` (the `respect_sentences`
flag is stored by the constructor but never read by the implementation). -/
structure SemanticChunkerCfg where
  chunkSize : Nat := 512
  chunkOverlap : Nat := 50
  respectSentences : Bool := true

/-- Membership test against `SENTENCE_ENDINGS`.  The Python set also
contains the two-character string `"\n\n"`, but the splitter tests single
characters (`for char in text: ... if char in SENTENCE_ENDINGS`), and a
one-character string can never equal a two-character one, so that entry
is inert and does not appear here. -/
def isSentenceEnding (c : Char) : Bool :=
  c = '。' || c = '！' || c = '？' || c = '.' || c = '!' || c = '?'

/-- Character loop of `SemanticChunker._split_sentences`. -/
def splitSentencesAux : List Char → List Char → List String
  | [], cur =>
    let s := pyStrip (String.mk cur.reverse)
    if s = "" then [] else [s]
  | c :: cs, cur =>
    if isSentenceEnding c then
      let s := pyStrip (String.mk (c :: cur).reverse)
      if s = "" then splitSentencesAux cs [] else s :: splitSentencesAux cs []
    else splitSentencesAux cs (c :: cur)

/-- The `SemanticChunker._split_sentences`. -/
def splitSentences (text : String) : List String := splitSentencesAux text.data []

/-- Backward walk of `SemanticChunker._get_overlap_sentences`
(`for sentence in reversed(sentences): ...` with `insert(0, ...)` and a
`break` once the budget would be exceeded). -/
def getOverlapAux (co : Nat) : List String → Nat → List String → List String
  | [], _, acc => acc
  | s :: rest, ot, acc =>
    if ot + countTokens s ≤ co then getOverlapAux co rest (ot + countTokens s) (s :: acc)
    else acc

/-- The `SemanticChunker._get_overlap_sentences`. -/
def getOverlapSentences (co : Nat) (sentences : List String) : List String :=
  if sentences = [] then [] else getOverlapAux co sentences.reverse 0 []

/-- Word-packing loop of `SemanticChunker._split_long_text`. -/
def splitLongTextAux (cs : Nat) : List String → List String → Nat → List String
  | [], curWords, _ =>
    if curWords = [] then [] else [String.intercalate " " curWords]
  | w :: ws, curWords, curLen =>
    let wt := countTokens w
    if curLen + wt > cs then
      (if curWords = [] then [] else [String.intercalate " " curWords])
        ++ splitLongTextAux cs ws [w] wt
    else splitLongTextAux cs ws (curWords ++ [w]) (curLen + wt)

/-- The `SemanticChunker._split_long_text`. -/
def splitLongText (cs : Nat) (text : String) : List String :=
  splitLongTextAux cs (pySplitWs text) [] 0

/-- Sentence-accumulation loop of `SemanticChunker._chunk_section`
(lines 91-163).  The produced chunks are represented as the lists of
sentences they are joined from; an oversized-sentence sub-chunk appears
as a singleton list, so every chunk's content is the `" "`-join of its
group (a singleton joins to itself). -/
def semLoop (C : SemanticChunkerCfg) : List String → List String → Nat → List (List String)
  | [], cur, _ => if cur = [] then [] else [cur]
  | s :: rest, cur, curLen =>
    let st := countTokens s
    if st > C.chunkSize then
      (if cur = [] then [] else [cur])
        ++ (splitLongText C.chunkSize s).map (fun t => [t])
        ++ semLoop C rest [] 0
    else
      if curLen + st > C.chunkSize then
        if cur = [] then semLoop C rest (cur ++ [s]) (curLen + st)
        else
          cur :: semLoop C rest (getOverlapSentences C.chunkOverlap cur ++ [s])
            (sumTokens (getOverlapSentences C.chunkOverlap cur) + st)
      else semLoop C rest (cur ++ [s]) (curLen + st)

/-- Metadata dict built by both chunkers for each section, with the
`None`-valued entries filtered out (`{k: v for k, v in metadata.items()
if v is not None}`), in the dict's insertion order. -/
def sectionMetaPairs (s : ParsedSection) : List (String × PValue) :=
  (match s.headingText with | some t => [("heading_text", PValue.str t)] | none => [])
    ++ (match s.headingLevel with | some l => [("heading_level", PValue.num l)] | none => [])
    ++ (match s.codeLanguage with | some l => [("code_language", PValue.str l)] | none => [])
    ++ (match s.pageNumber with | some p => [("page_number", PValue.num p)] | none => [])

/-- The `SemanticChunker._chunk_section`. -/
def chunkSection (C : SemanticChunkerCfg) (documentId content : String)
    (contentType : ContentType) (hier : List String)
    (md : List (String × PValue)) : List Chunk :=
  if countTokens content ≤ C.chunkSize then
    [Chunk.create documentId content contentType hier md]
  else if contentType = .codeBlock ∨ contentType = .table then
    [Chunk.create documentId content contentType hier md]
  else
    (semLoop C (splitSentences content) [] 0).map
      (fun g => Chunk.create documentId (String.intercalate " " g) contentType hier md)

/-- The `SemanticChunker.chunk`. -/
def semanticChunk (C : SemanticChunkerCfg) (document : ParsedDocument)
    (documentId : String) : List Chunk :=
  (document.sections.map (fun s =>
    chunkSection C documentId s.content s.contentType s.sectionHierarchy
      (sectionMetaPairs s))).flatten

/-! ## StructureChunker (`src/core/chunkers/structure_chunker.py`) -/

/-- Configuration of `StructureChunker.__init__` (the `min_chunk_size`
option is stored but never read by the implementation). -/
structure StructureChunkerCfg where
  chunkSize : Nat := 1024
  chunkOverlap : Nat := 100
  minChunkSize : Nat := 100
  includeHeadingInChunk : Bool := true

/-- Loop of `StructureChunker._group_sections_by_hierarchy`.  The state
is the current hierarchy and the (in-order) sections accumulated for it;
heading sections are treated as group boundaries and are not put into
any group. -/
def groupSectionsAux :
    List ParsedSection → List String → List ParsedSection →
      List (List String × List ParsedSection)
  | [], curHier, curSecs =>
    if curSecs = [] then [] else [(curHier, curSecs)]
  | s :: rest, curHier, curSecs =>
    if s.contentType = .heading then
      (if curSecs = [] then [] else [(curHier, curSecs)])
        ++ groupSectionsAux rest s.sectionHierarchy []
    else
      if s.sectionHierarchy ≠ curHier then
        (if curSecs = [] then [] else [(curHier, curSecs)])
          ++ groupSectionsAux rest s.sectionHierarchy [s]
      else groupSectionsAux rest curHier (curSecs ++ [s])

/-- The `StructureChunker._group_sections_by_hierarchy`. -/
def groupSectionsByHierarchy (sections : List ParsedSection) :
    List (List String × List ParsedSection) :=
  groupSectionsAux sections [] []

/-- The hierarchy-path text prepended to a chunk when
`include_heading_in_chunk` is set and the hierarchy is non-empty:
`" > ".join(hierarchy) + "\n\n"` (empty string otherwise). -/
def hierPrefixStr (C : StructureChunkerCfg) (hier : List String) : String :=
  if C.includeHeadingInChunk ∧ hier ≠ [] then
    String.intercalate " > " hier ++ "\n\n"
  else ""

/-- The `StructureChunker._get_dominant_content_type_from_list` priority. -/
def ctPriority : ContentType → Nat
  | .codeBlock => 4
  | .table => 3
  | .listBlock => 2
  | .text => 1
  | .heading => 0

/-- The `max(types, key=...)` keeps the first element attaining the maximal
key, which `foldl` with a strict comparison reproduces. -/
def dominantContentType : List ContentType → ContentType
  | [] => .text
  | t :: ts => ts.foldl (fun best x => if ctPriority x > ctPriority best then x else best) t

/-- The `StructureChunker._merge_metadata`: first-wins union of the parts'
(`None`-filtered) metadata pairs. -/
def mergeMetadata (parts : List (List (String × PValue))) : List (String × PValue) :=
  parts.foldl (fun merged md =>
    md.foldl (fun m kv => if (m.map Prod.fst).contains kv.1 then m else m ++ [kv]) merged) []

/-- Line-packing loop of `StructureChunker._split_large_content`
(lines 230-271): the check precedes the (unconditional) append. -/
def splitLargeLinesAux (C : StructureChunkerCfg) (documentId : String)
    (contentType : ContentType) (hier : List String) :
    List String → List String → Nat → List Chunk
  | [], curLines, _ =>
    if curLines = [] then []
    else [Chunk.create documentId (hierPrefixStr C hier ++ String.intercalate "\n" curLines)
      contentType hier []]
  | line :: rest, curLines, curTokens =>
    let lt := countTokens line
    if curTokens + lt > C.chunkSize ∧ curLines ≠ [] then
      Chunk.create documentId (hierPrefixStr C hier ++ String.intercalate "\n" curLines)
          contentType hier []
        :: splitLargeLinesAux C documentId contentType hier rest [line] lt
    else splitLargeLinesAux C documentId contentType hier rest (curLines ++ [line]) (curTokens + lt)

/-- The `StructureChunker._split_large_content`. -/
def splitLargeContent (C : StructureChunkerCfg) (content : String)
    (contentType : ContentType) (documentId : String) (hier : List String) : List Chunk :=
  if contentType = .codeBlock ∨ contentType = .table then
    [Chunk.create documentId (hierPrefixStr C hier ++ content) contentType hier []]
  else
    splitLargeLinesAux C documentId contentType hier (splitLines content) [] 0

/-- Part-accumulation loop of `StructureChunker._chunk_section_group`
(lines 124-199).  State: accumulated part contents, their token total,
and their content types. -/
def structLoop (C : StructureChunkerCfg) (documentId : String) (hier : List String) :
    List (String × ContentType) → List String → Nat → List ContentType → List Chunk
  | [], curContent, _, curTypes =>
    if curContent = [] then []
    else [Chunk.create documentId
      (hierPrefixStr C hier ++ String.intercalate "\n\n" curContent)
      (dominantContentType curTypes) hier []]
  | (content, contentType) :: rest, curContent, curTokens, curTypes =>
    let pt := countTokens content
    if pt > C.chunkSize then
      (if curContent = [] then []
       else [Chunk.create documentId
        (hierPrefixStr C hier ++ String.intercalate "\n\n" curContent)
        (dominantContentType curTypes) hier []])
        ++ splitLargeContent C content contentType documentId hier
        ++ structLoop C documentId hier rest [] 0 []
    else
      if curTokens + pt > C.chunkSize ∧ curContent ≠ [] then
        Chunk.create documentId
            (hierPrefixStr C hier ++ String.intercalate "\n\n" curContent)
            (dominantContentType curTypes) hier []
          :: structLoop C documentId hier rest [content] pt [contentType]
      else structLoop C documentId hier rest (curContent ++ [content]) (curTokens + pt)
        (curTypes ++ [contentType])

/-- The `StructureChunker._chunk_section_group`. -/
def chunkSectionGroup (C : StructureChunkerCfg) (sections : List ParsedSection)
    (documentId : String) (hier : List String) : List Chunk :=
  let combinedParts := sections.map (fun s => (s.content, s.contentType, sectionMetaPairs s))
  let totalTokens := sumTokens (combinedParts.map (fun p => p.1))
  if totalTokens ≤ C.chunkSize then
    [Chunk.create documentId
      (hierPrefixStr C hier ++ String.intercalate "\n\n" (combinedParts.map (fun p => p.1)))
      (dominantContentType (combinedParts.map (fun p => p.2.1))) hier
      (mergeMetadata (combinedParts.map (fun p => p.2.2)))]
  else
    structLoop C documentId hier (combinedParts.map (fun p => (p.1, p.2.1))) [] 0 []

/-- The `StructureChunker.chunk`. -/
def structureChunk (C : StructureChunkerCfg) (document : ParsedDocument)
    (documentId : String) : List Chunk :=
  ((groupSectionsByHierarchy document.sections).map (fun g =>
    chunkSectionGroup C g.2 documentId g.1)).flatten

/-! ## MarkdownParser (`src/core/parsers/markdown_parser.py`)

The parser is modeled from the point where fenced code blocks have been
replaced by placeholders (`CODE_BLOCK_PATTERN.sub` in `_parse_content`):
`parseContent` takes the replaced text together with the placeholder
dict.  For input without fenced code blocks the text is unchanged and
the dict is empty. -/

/-- Python truthiness of an `Optional[str]`: `None` and `""` are falsy. -/
def optTruthy : Option String → Bool
  | none => false
  | some s => s ≠ ""

/-- Word character of the `\w` class (ASCII fragment). -/
def isWordChar (c : Char) : Bool := c.isAlphanum || c = '_'

/-- Substring test, Python's `needle in hay`. -/
def strContains (hay needle : String) : Bool := decide (needle.data <:+: hay.data)

/-- The `HEADING_PATTERN.match(line)` for `^(#{1,6})\s+(.+)$`: matched iff
the leading `#`-run has length 1..6, is followed by a whitespace
character, and at least one further character remains (`.+` may itself
match whitespace).  Returns the level and `group(2).strip()` (stripping
`group(2)` equals stripping everything after the `#`-run, since the
`\s+` part is whitespace). -/
def headingMatch (line : String) : Option (Nat × String) :=
  let cs := line.data
  let r := (cs.takeWhile (· = '#')).length
  if 1 ≤ r ∧ r ≤ 6 ∧ r + 2 ≤ cs.length ∧ ((cs.drop r).headD 'x').isWhitespace = true then
    some (r, pyStrip (String.mk (cs.drop r)))
  else none

/-- The `while len(current_hierarchy) >= level: current_hierarchy.pop()` —
popping from the end until the depth is below `level` leaves exactly the
first `level - 1` entries (matched heading levels are always ≥ 1). -/
def popWhileDepthGE (hier : List String) (level : Nat) : List String :=
  hier.take (level - 1)

/-- The `TABLE_PATTERN.search` for `(\|[^\n]+\|\n)+`: some `\n`-terminated
line ends in `|` and contains an earlier `|` with at least one character
in between. -/
def hasMdTableLine (content : String) : Bool :=
  let lines := splitLines content
  lines.dropLast.any fun line =>
    let cs := line.data
    cs.getLast? = some '|' && cs.dropLast.dropLast.contains '|'

/-- One line against `LIST_PATTERN` (`^(\s*[-*+]|\s*\d+\.)\s+.+$`,
matched at line starts by `re.MULTILINE`). -/
def lineIsListItem (line : String) : Bool :=
  let rest :=
    match line.data.dropWhile Char.isWhitespace with
    | c :: cs =>
      if c = '-' ∨ c = '*' ∨ c = '+' then some cs
      else
        let ds := (c :: cs).takeWhile Char.isDigit
        if ds ≠ [] then
          match (c :: cs).drop ds.length with
          | '.' :: cs2 => some cs2
          | _ => none
        else none
    | [] => none
  match rest with
  | some (c :: _ :: _) => c.isWhitespace
  | _ => false

/-- The `MarkdownParser._detect_content_type`. -/
def detectContentType (content : String) : ContentType :=
  if hasMdTableLine content then .table
  else if (splitLines content).any lineIsListItem then .listBlock
  else .text

/-- A code-block placeholder entry: `(placeholder, (language, code))`. -/
def CodeBlocks : Type := List (String × String × String)

/-- The `MarkdownParser._create_sections_from_content`: peel off code-block
placeholders in dict order, then classify the remaining content. -/
def createSections (heading : Option String) (level : Option Nat)
    (hier : List String) : CodeBlocks → String → List ParsedSection
  | [], content =>
    if pyStrip content ≠ "" then
      [{ content := content, contentType := detectContentType content,
         headingLevel := level, headingText := heading, sectionHierarchy := hier }]
    else []
  | (ph, lang, code) :: rest, content =>
    if strContains content ph then
      let parts := content.splitOn ph
      let before := pyStrip (parts.headD "")
      let after := if parts.length > 1 then pyStrip (parts.getD 1 "") else ""
      (if before ≠ "" then
        [{ content := before, contentType := detectContentType before,
           headingLevel := level, headingText := heading, sectionHierarchy := hier }]
       else [])
        ++ [{ content := pyStrip code, contentType := .codeBlock,
              headingLevel := level, headingText := heading, sectionHierarchy := hier,
              codeLanguage := if lang = "" then none else some lang }]
        ++ createSections heading level hier rest after
    else createSections heading level hier rest content

/-- Line loop of `MarkdownParser._parse_content` (lines 66-122).  State:
current hierarchy stack, accumulated content lines, current heading text
and level. -/
def parseLinesAux (cbs : CodeBlocks) :
    List String → List String → List String → Option String → Option Nat →
      List ParsedSection
  | [], hier, curLines, curHeading, curLevel =>
    if curLines ≠ [] then
      let sc := pyStrip (String.intercalate "\n" curLines)
      if sc ≠ "" then createSections curHeading curLevel hier cbs sc else []
    else []
  | line :: rest, hier, curLines, curHeading, curLevel =>
    match headingMatch line with
    | some (level, text) =>
      let flushed :=
        if curLines ≠ [] ∨ optTruthy curHeading then
          let sc := pyStrip (String.intercalate "\n" curLines)
          if sc ≠ "" ∨ optTruthy curHeading then
            createSections curHeading curLevel hier cbs sc
          else []
        else []
      let newHier := popWhileDepthGE hier level ++ [text]
      flushed
        ++ ({ content := line, contentType := .heading, headingLevel := some level,
              headingText := some text, sectionHierarchy := newHier } : ParsedSection)
        :: parseLinesAux cbs rest newHier [] (some text) (some level)
    | none => parseLinesAux cbs rest hier (curLines ++ [line]) curHeading curLevel

/-- The `MarkdownParser._parse_content` after code-block replacement (see
the section comment): the section list of the parsed document. -/
def parseContent (contentNoCode : String) (cbs : CodeBlocks) : List ParsedSection :=
  parseLinesAux cbs (splitLines contentNoCode) [] [] none none

/-! ## Retrievers (`src/core/retrievers/`)

Scores are exact rationals.  The metadata dict of a `RetrievalResult` is
modeled by the three keys the retrievers read (`doc_type`,
`entity_names`, `table_names`), with the Python `.get` defaults as field
defaults.  The external vector index and embedding service are
abstracted as function parameters; a search hit's payload carries the
fields of the storage wire contract (`Chunk.to_payload`). -/

/-- The metadata keys of a retrieval result that the retrievers read. -/
structure ResultMeta where
  docType : String := ""
  entityNames : List String := []
  tableNames : List String := []
  deriving DecidableEq, Repr

/-- The `RetrievalResult` dataclass from `retrievers/base.py`. -/
structure RetrievalResult where
  chunkId : String
  documentId : String
  content : String
  score : ℚ
  metadata : ResultMeta := {}
  source : String := "unknown"
  deriving DecidableEq, Repr

/-- A vector-store search hit: `{"score": ..., "payload": {...}}`. -/
structure StoreHit where
  score : ℚ
  chunkId : String
  documentId : String
  content : String
  docType : String := ""
  entityNames : List String := []
  tableNames : List String := []
  deriving DecidableEq, Repr

/-- Build a `RetrievalResult` from a hit, as the retrievers do (score
scaled by `decay`, payload metadata carried over). -/
def hitToResult (source : String) (decay : ℚ) (h : StoreHit) : RetrievalResult :=
  { chunkId := h.chunkId, documentId := h.documentId, content := h.content,
    score := h.score * decay,
    metadata := { docType := h.docType, entityNames := h.entityNames,
                  tableNames := h.tableNames },
    source := source }

/-- Python dict assignment `m[k] = v` on an insertion-ordered
association list: update in place if the key is present, append
otherwise. -/
def pyDictSet {α : Type} : List (String × α) → String → α → List (String × α)
  | [], k, v => [(k, v)]
  | (k', v') :: rest, k, v =>
    if k' = k then (k', v) :: rest else (k', v') :: pyDictSet rest k v

/-- Python `m.get(k, d)`. -/
def pyDictGetD {α : Type} (m : List (String × α)) (k : String) (d : α) : α :=
  match m.find? (fun kv => kv.1 = k) with
  | some kv => kv.2
  | none => d

/-- Python `k in m`. -/
def pyDictHas {α : Type} (m : List (String × α)) (k : String) : Bool :=
  (m.find? (fun kv => kv.1 = k)).isSome

/-! ### HybridRetriever (`hybrid_retriever.py`) -/

/-- Configuration of `HybridRetriever.__init__`. -/
structure HybridCfg where
  denseWeight : ℚ := 7/10
  sparseWeight : ℚ := 3/10
  rrfK : Nat := 60

/-- One result-list pass of `_reciprocal_rank_fusion` (lines 122-135):
accumulate `weight / (rrf_k + rank + 1)` into the score dict and record
the result.  The dense pass overwrites `result_map` entries
(`keepExisting = false`), the sparse pass only fills absent keys. -/
def rrfProcessAux (weight : ℚ) (rrfK : Nat) (keepExisting : Bool) :
    List RetrievalResult → Nat →
      List (String × ℚ) × List (String × RetrievalResult) →
      List (String × ℚ) × List (String × RetrievalResult)
  | [], _, st => st
  | result :: rest, rank, st =>
    let rrfScore := weight / ((rrfK : ℚ) + (rank : ℚ) + 1)
    let scores := pyDictSet st.1 result.chunkId
      (pyDictGetD st.1 result.chunkId 0 + rrfScore)
    let rmap :=
      if keepExisting ∧ pyDictHas st.2 result.chunkId then st.2
      else pyDictSet st.2 result.chunkId result
    rrfProcessAux weight rrfK keepExisting rest (rank + 1) (scores, rmap)

def rrfProcess (weight : ℚ) (rrfK : Nat) (keepExisting : Bool)
    (results : List RetrievalResult)
    (st : List (String × ℚ) × List (String × RetrievalResult)) :
    List (String × ℚ) × List (String × RetrievalResult) :=
  rrfProcessAux weight rrfK keepExisting results 0 st

/-- Stable insertion of a later element into a descending-score list:
placed before the first strictly smaller score, after all ties. -/
def insertDesc (score : String → ℚ) (x : String) : List String → List String
  | [] => [x]
  | y :: ys => if score x > score y then x :: y :: ys else y :: insertDesc score x ys

/-- The `sorted(keys, key=lambda x: scores[x], reverse=True)`: Python's sort
is stable and `reverse=True` flips the comparison while keeping ties in
input order, which left-to-right stable insertion reproduces. -/
def stableSortDesc (score : String → ℚ) (l : List String) : List String :=
  l.foldl (fun acc x => insertDesc score x acc) []

/-- The `HybridRetriever._reciprocal_rank_fusion`. -/
def reciprocalRankFusion (C : HybridCfg) (dense sparse : List RetrievalResult) :
    List RetrievalResult :=
  let st := rrfProcess C.sparseWeight C.rrfK true sparse
    (rrfProcess C.denseWeight C.rrfK false dense ([], []))
  let sortedIds := stableSortDesc (fun cid => pyDictGetD st.1 cid 0) (st.1.map Prod.fst)
  sortedIds.filterMap (fun cid =>
    (st.2.find? (fun kv => kv.1 = cid)).map (fun kv =>
      { kv.2 with score := pyDictGetD st.1 cid 0, source := "hybrid" }))

/-! ### CrossRefRetriever (`cross_ref_retriever.py`) -/

/-- The `CrossRefRetriever._search_related`, with the embedding service and
vector store abstracted into `search (query_text, top_k, doc_type
filter)`.  Secondary hits from the originating document are skipped and
kept hits are rescored by the 0.8 decay and tagged `cross_reference`. -/
def searchRelated (search : String → Nat → String → List StoreHit)
    (maxCrossRefs : Nat) (entities : List String) (docType : String)
    (excludeDocId : String) : List RetrievalResult :=
  if entities = [] then []
  else
    let results := search (String.intercalate " " entities) (maxCrossRefs + 1) docType
    (results.filter (fun h => h.documentId ≠ excludeDocId)).map
      (hitToResult "cross_reference" (8/10))

/-- The secondary results spawned by one primary hit in
`_find_cross_references` (including the `[: max_cross_refs]` cut). -/
def crossRefsForHit (search : String → Nat → String → List StoreHit)
    (maxCrossRefs : Nat) (r : RetrievalResult) : List RetrievalResult :=
  if r.metadata.docType = "api_spec" then
    (searchRelated search maxCrossRefs (r.metadata.entityNames ++ r.metadata.tableNames)
      "table_schema" r.documentId).take maxCrossRefs
  else if r.metadata.docType = "table_schema" then
    (searchRelated search maxCrossRefs (r.metadata.tableNames ++ r.metadata.entityNames)
      "api_spec" r.documentId).take maxCrossRefs
  else []

/-- The `CrossRefRetriever._find_cross_references`. -/
def findCrossReferences (search : String → Nat → String → List StoreHit)
    (maxCrossRefs : Nat) (primary : List RetrievalResult) : List RetrievalResult :=
  (primary.map (crossRefsForHit search maxCrossRefs)).flatten

/-- The `seen`-set deduplication loop of `CrossRefRetriever.retrieve`
(lines 45-51): keep the first occurrence of every `chunk_id`. -/
def pyDedupFirstAux : List RetrievalResult → List String → List RetrievalResult
  | [], _ => []
  | r :: rest, seen =>
    if seen.contains r.chunkId then pyDedupFirstAux rest seen
    else r :: pyDedupFirstAux rest (r.chunkId :: seen)

def pyDedupFirst (l : List RetrievalResult) : List RetrievalResult :=
  pyDedupFirstAux l []

/-- The `CrossRefRetriever.retrieve`, with the primary dense search
(embedding service + vector store + filters) abstracted into
`primarySearch (query, top_k)`. -/
def crossRefRetrieve (primarySearch : String → Nat → List StoreHit)
    (relatedSearch : String → Nat → String → List StoreHit)
    (maxCrossRefs : Nat) (query : String) (topK : Nat) : List RetrievalResult :=
  let primary := (primarySearch query topK).map (hitToResult "primary" 1)
  pyDedupFirst (primary ++ findCrossReferences relatedSearch maxCrossRefs primary)

/-! ## Chunk.to_payload (`src/core/chunkers/base.py`, lines 40-49) -/

/-- Python dict construction from a sequence of (possibly repeated) key
assignments, as in a dict literal with `**` unpacking: later assignments
override earlier ones. -/
def dictLit (entries : List (String × PValue)) : List (String × PValue) :=
  entries.foldl (fun m kv => pyDictSet m kv.1 kv.2) []

/-- Lookup in an association list (first match; `dictLit` results have
unique keys). -/
def dictGet? {α : Type} (m : List (String × α)) (k : String) : Option α :=
  (m.find? (fun kv => kv.1 = k)).map (fun kv => kv.2)

/-- Value of the last assignment of key `k` in an assignment sequence. -/
def lastAssoc {α : Type} (m : List (String × α)) (k : String) : Option α :=
  (m.reverse.find? (fun kv => kv.1 = k)).map (fun kv => kv.2)

/-- The five fixed entries of `Chunk.to_payload`. -/
def payloadFixed (c : Chunk) : List (String × PValue) :=
  [("chunk_id", PValue.str c.chunkId),
   ("document_id", PValue.str c.documentId),
   ("content", PValue.str c.content),
   ("content_type", PValue.str c.contentType.value),
   ("section_hierarchy", PValue.strList c.sectionHierarchy)]

/-- The `Chunk.to_payload`: the dict literal
`{chunk_id, document_id, content, content_type, section_hierarchy,
**metadata}`. -/
def Chunk.toPayload (c : Chunk) : List (String × PValue) :=
  dictLit (payloadFixed c ++ c.metadata)

/-! ## TableExtractor (`src/core/extractors/table_extractor.py`)

The ordered regular-expression patterns are embedded as deterministic
matchers over `List Char`; each matcher implements its pattern's
leftmost-match semantics at a given position (the greedy/lazy and
backtracking behaviour of every pattern is deterministic, as argued in
each doc comment), and `scanAll` implements `finditer`'s non-overlapping
left-to-right scan. -/

/-- The `\w` (ASCII fragment plus CJK ideographs — covers every character
appearing in this development; Python's `\w` is full Unicode). -/
def isTextWordChar (c : Char) : Bool :=
  c.isAlphanum || c = '_' || (0x4E00 ≤ c.toNat && c.toNat ≤ 0x9FFF)

/-- The backquote character (code point 96). -/
def backquoteChar : Char := Char.ofNat 96

/-- One of the quote characters of the `[`'"]?` classes. -/
def isQuoteCh (c : Char) : Bool := c = backquoteChar || c = Char.ofNat 39 || c = '"'

/-- Consume an optional quote character. -/
def optQuote : List Char → List Char
  | c :: cs => if isQuoteCh c then cs else c :: cs
  | [] => []

/-- Case-insensitive literal match of a (lowercase) keyword; returns the
rest of the input on success. -/
def ciMatchKw : List Char → List Char → Option (List Char)
  | [], cs => some cs
  | _ :: _, [] => none
  | k :: ks, c :: cs => if c.toLower = k then ciMatchKw ks cs else none

/-- The `\s+`: at least one whitespace character, consumed greedily
(deterministic — no following pattern element can match whitespace). -/
def wsPlus : List Char → Option (List Char)
  | c :: cs => if c.isWhitespace then some (cs.dropWhile Char.isWhitespace) else none
  | [] => none

/-- The `finditer`: scan left to right, attempting a match at every
position; on success continue after the match (non-overlapping), on
failure advance one character.  Every matcher consumes at least one
character, so `length + 1` fuel is exact. -/
def scanAllAux {α : Type} (tryFn : List Char → Option (α × List Char)) :
    Nat → List Char → List α
  | 0, _ => []
  | _, [] => []
  | fuel + 1, c :: cs =>
    match tryFn (c :: cs) with
    | some (a, rest) => a :: scanAllAux tryFn fuel rest
    | none => scanAllAux tryFn fuel cs

def scanAll {α : Type} (tryFn : List Char → Option (α × List Char))
    (cs : List Char) : List α :=
  scanAllAux tryFn (cs.length + 1) cs

/-- The `[:：\s]` class of the keyword-mention patterns. -/
def isSepCh (c : Char) : Bool := c = ':' || c = '：' || c.isWhitespace

/-- The `[:：\s]+[`'"]?(\w+)[`'"]?` suffix shared by the `table:`/`sheet:`
mention patterns (greedy separator run is deterministic: quotes and word
characters are not separators). -/
def tryNameAfterKw (cs : List Char) : Option (String × List Char) :=
  match cs with
  | c :: rest =>
    if isSepCh c then
      let r1 := optQuote (rest.dropWhile isSepCh)
      let w := r1.takeWhile isTextWordChar
      if w = [] then none
      else some (String.mk w, optQuote (r1.dropWhile isTextWordChar))
    else none
  | [] => none

/-- The `(?:table|表格?)` (the optional `格` is deterministic: `格` is not a
separator, so a failing continuation cannot be saved by dropping it). -/
def tryTableKw (cs : List Char) : Option (List Char) :=
  match ciMatchKw "table".data cs with
  | some r => some r
  | none =>
    match cs with
    | c :: rest =>
      if c = '表' then
        match rest with
        | g :: r2 => if g = '格' then some r2 else some rest
        | [] => some rest
      else none
    | [] => none

/-- Table-name pattern 1: `(?:table|表格?)[:：\s]+[`'"]?(\w+)[`'"]?`. -/
def tryP1 (cs : List Char) : Option (String × List Char) :=
  (tryTableKw cs).bind tryNameAfterKw

/-- The `(?:sheet|工作表)`. -/
def trySheetKw (cs : List Char) : Option (List Char) :=
  match ciMatchKw "sheet".data cs with
  | some r => some r
  | none => ciMatchKw "工作表".data cs

/-- Table-name pattern 4: `(?:sheet|工作表)[:：\s]+(\w+)`. -/
def tryP4 (cs : List Char) : Option (String × List Char) :=
  (trySheetKw cs).bind tryNameAfterKw

/-- The `(?:IF\s+NOT\s+EXISTS\s+)?`: attempt the whole optional group,
falling back to the unconsumed input (regex tries with, then without). -/
def tryIfNotExists (cs : List Char) : List Char :=
  let attempt :=
    (ciMatchKw "if".data cs).bind fun a =>
    (wsPlus a).bind fun b =>
    (ciMatchKw "not".data b).bind fun c =>
    (wsPlus c).bind fun d =>
    (ciMatchKw "exists".data d).bind fun e =>
    wsPlus e
  attempt.getD cs

/-- Shared front of both CREATE TABLE patterns:
`CREATE\s+TABLE\s+(?:IF\s+NOT\s+EXISTS\s+)?[`'"]?(\w+)`; returns the
captured name and the rest after it. -/
def tryCreateFront (cs : List Char) : Option (String × List Char) :=
  (ciMatchKw "create".data cs).bind fun r1 =>
  (wsPlus r1).bind fun r2 =>
  (ciMatchKw "table".data r2).bind fun r3 =>
  (wsPlus r3).bind fun r4 =>
    let r5 := optQuote (tryIfNotExists r4)
    let w := r5.takeWhile isTextWordChar
    if w = [] then none
    else some (String.mk w, r5.dropWhile isTextWordChar)

/-- Table-name pattern 2:
`CREATE\s+TABLE\s+(?:IF\s+NOT\s+EXISTS\s+)?[`'"]?(\w+)[`'"]?`. -/
def tryCreateTableName (cs : List Char) : Option (String × List Char) :=
  (tryCreateFront cs).map (fun p => (p.1, optQuote p.2))

/-- The `create_table_pattern` of `extract_from_text`:
`CREATE\s+TABLE\s+(?:IF\s+NOT\s+EXISTS\s+)?[`'"]?(\w+)[`'"]?\s*\((.*?)\)`
with `DOTALL`; the lazy body capture stops at the first `)`. -/
def tryCreateTableFull (cs : List Char) :
    Option ((String × String) × List Char) :=
  (tryCreateFront cs).bind fun p =>
    match (optQuote p.2).dropWhile Char.isWhitespace with
    | '(' :: r =>
      match r.dropWhile (fun c => ¬ c = ')') with
      | ')' :: r2 => some ((p.1, String.mk (r.takeWhile (fun c => ¬ c = ')'))), r2)
      | _ => none
    | _ => none

/-- Does the input start with `(?:table|表)` (case-insensitively)? -/
def startsTableLit (cs : List Char) : Bool :=
  (ciMatchKw "table".data cs).isSome ||
    (match cs with | c :: _ => c = '表' | [] => false)

/-- Backtracking split of `(\w+)\s*(?:table|表)`: the greedy word run
`w` is shortened from the right until either the whole word was taken
and the following text (whitespace skipped) starts with the literal, or
the remainder of the word itself starts with the literal (`\s*` then
matching zero characters). -/
def p3SplitAux (w rest : List Char) : Nat → Option String
  | 0 => none
  | k + 1 =>
    let tail := w.drop (k + 1)
    let ok :=
      if tail = [] then startsTableLit (rest.dropWhile Char.isWhitespace)
      else startsTableLit tail
    if ok then some (String.mk (w.take (k + 1))) else p3SplitAux w rest k

/-- Table-name pattern 3 on one line: `^#+\s*(\w+)\s*(?:table|表)` with
`re.MULTILINE` (at most one match per line, anchored at its start). -/
def tryP3line (line : String) : Option String :=
  let cs := line.data
  let hashes := cs.takeWhile (fun c => c = '#')
  if hashes = [] then none
  else
    let r1 := (cs.drop hashes.length).dropWhile Char.isWhitespace
    let w := r1.takeWhile isTextWordChar
    if w = [] then none
    else p3SplitAux w (r1.dropWhile isTextWordChar) w.length

def pyToLower (s : String) : String := String.mk (s.data.map Char.toLower)

def pyToUpper (s : String) : String := String.mk (s.data.map Char.toUpper)

/-- The `TableExtractor._is_valid_table_name` (its `^\w+$` check followed by
the stop-list; the argument is already lowercased by the caller). -/
def validTableName (name : String) : Bool :=
  name.data.all isTextWordChar && name ≠ "" &&
    !(["the", "a", "an", "this", "that", "table", "schema",
       "column", "field", "name", "type", "description",
       "create", "select", "insert", "update", "delete"].contains (pyToLower name))

/-- A parsed DDL column record. -/
structure ColumnRec where
  name : String
  type : String
  nullable : Bool
  primaryKey : Bool
  deriving DecidableEq, Repr

/-- One entry of `column_definitions`: either a DDL-parsed
`{"table": ..., "columns": [...]}` or a markdown-table
`{"columns": [{name, type, description}, ...]}`. -/
inductive ColumnsEntry where
  | ddl (table : String) (columns : List ColumnRec)
  | mdTable (columns : List (String × String × String))
  deriving DecidableEq, Repr

/-- The alternation of `COLUMN_PATTERN`, in source order (first match
wins; no backtracking into the alternation is possible because the
following character class accepts anything the alternatives end with). -/
def sqlTypeAlternation : List String :=
  ["varchar", "char", "int", "integer", "bigint", "decimal", "numeric",
   "float", "double", "text", "date", "datetime", "timestamp", "boolean",
   "bool", "json", "uuid", "serial"]

/-- Try the type-keyword alternation; returns the matched original-case
characters and the rest. -/
def tryTypeKwAux : List String → List Char → Option (List Char × List Char)
  | [], _ => none
  | kw :: rest, cs =>
    match ciMatchKw kw.data cs with
    | some r => some (cs.take kw.length, r)
    | none => tryTypeKwAux rest cs

/-- The `[\w\(\),\s]*` class closing `COLUMN_PATTERN`'s type group. -/
def isColTypeRunCh (c : Char) : Bool :=
  isTextWordChar c || c = '(' || c = ')' || c = ',' || c.isWhitespace

/-- One `COLUMN_PATTERN` match attempt:
`[`'"]?(\w+)[`'"]?\s+((?:VARCHAR|...|SERIAL)[\w\(\),\s]*)` (greedy word
and class runs are deterministic — whitespace, quotes and the keyword
heads are disjoint from the preceding runs). -/
def tryColumn (cs : List Char) : Option ((String × String) × List Char) :=
  let r1 := optQuote cs
  let w := r1.takeWhile isTextWordChar
  if w = [] then none
  else
    match wsPlus (optQuote (r1.dropWhile isTextWordChar)) with
    | none => none
    | some r4 =>
      match tryTypeKwAux sqlTypeAlternation r4 with
      | none => none
      | some (kwChars, r5) =>
        some ((String.mk w, String.mk (kwChars ++ r5.takeWhile isColTypeRunCh)),
          r5.dropWhile isColTypeRunCh)

/-- The `TableExtractor._parse_columns`: the nullable / primary-key flags
are computed once from the whole body (body-wide, not per column). -/
def parseColumns (columnsText : String) : List ColumnRec :=
  (scanAll tryColumn columnsText.data).map fun p =>
    { name := p.1,
      type := pyStrip p.2,
      nullable := ¬ strContains (pyToUpper columnsText) "NOT NULL",
      primaryKey := strContains (pyToUpper columnsText) "PRIMARY KEY" }

/-- Cells of a markdown-table row: split on `|`, strip, drop empties. -/
def cellsOf (line : String) : List String :=
  ((splitOnChar '|' line).map pyStrip).filter (fun c => c ≠ "")

/-- Header / body line of the markdown-table pattern
`\|([^\n]+)\|` — starts and ends with `|` with at least one character
between (modeled line-anchored; no claim input contains `|`, so the
mid-line-start nuance of the unanchored regex is unexercised). -/
def mdPipeLine (line : String) : Bool :=
  let cs := line.data
  cs.length ≥ 3 && cs.headD ' ' = '|' && cs.getLastD ' ' = '|'

/-- Separator line `\|[-:\s|]+\|`. -/
def mdSepLine (line : String) : Bool :=
  let cs := line.data
  mdPipeLine line &&
    ((cs.drop 1).dropLast ≠ [] &&
      (cs.drop 1).dropLast.all (fun c => c = '-' || c = ':' || c.isWhitespace || c = '|'))

def mdSchemaKeywords : List String :=
  ["column", "field", "name", "type", "datatype", "description"]

/-- The `TableExtractor._extract_from_markdown_table` over the line list:
a header line, a separator line, then one or more body rows.  The fuel
argument (one unit per line) only serves structural termination: every
step consumes at least one line. -/
def mdTableAux : Nat → List String → List ColumnsEntry
  | 0, _ => []
  | _, [] => []
  | _, [_] => []
  | fuel + 1, l1 :: l2 :: rest2 =>
    if mdPipeLine l1 ∧ mdSepLine l2 ∧ (rest2.takeWhile mdPipeLine ≠ []) then
      let bodyLines := rest2.takeWhile mdPipeLine
      let headers := cellsOf l1
      let entry :=
        if mdSchemaKeywords.any (fun kw =>
            strContains (String.intercalate " " (headers.map pyToLower)) kw) then
          let cols := bodyLines.filterMap (fun row =>
            let cells := cellsOf row
            if cells.length ≥ 2 then
              some (cells.getD 0 "", cells.getD 1 "", cells.getD 2 "")
            else none)
          if cols = [] then [] else [ColumnsEntry.mdTable cols]
        else []
      entry ++ mdTableAux fuel (rest2.drop bodyLines.length)
    else mdTableAux fuel (l2 :: rest2)

def mdTableColumns (text : String) : List ColumnsEntry :=
  mdTableAux (splitLines text).length (splitLines text)

/-- Ascending insertion keeping distinct strings ordered by the
code-point lexicographic order (Python's `sorted` on `str`). -/
def insertAscStr (x : String) : List String → List String
  | [] => [x]
  | y :: ys => if x < y then x :: y :: ys else y :: insertAscStr x ys

/-- The `sorted(list(s))` for a set `s` accumulated from a list: dedup
(membership only) then sort ascending. -/
def pySortedSet (l : List String) : List String :=
  (l.foldl (fun acc x => if acc.contains x then acc else acc ++ [x]) []).foldl
    (fun acc x => insertAscStr x acc) []

/-- The extractor result fields relevant to table extraction. -/
structure TableMetadata where
  tableNames : List String
  columnDefinitions : List ColumnsEntry
  deriving DecidableEq, Repr

/-- The `TableExtractor.extract_from_text`. -/
def tableExtractFromText (text : String) : TableMetadata :=
  let cs := text.data
  let mentionNames :=
    ((scanAll tryP1 cs
      ++ scanAll tryCreateTableName cs
      ++ (splitLines text).filterMap tryP3line
      ++ scanAll tryP4 cs).map pyToLower).filter validTableName
  let ddl := scanAll tryCreateTableFull cs
  let ddlNames := ddl.map (fun p => pyToLower p.1)
  let ddlDefs := ddl.filterMap (fun p =>
    let cols := parseColumns p.2
    if cols = [] then none else some (ColumnsEntry.ddl (pyToLower p.1) cols))
  { tableNames := pySortedSet (mentionNames ++ ddlNames),
    columnDefinitions := ddlDefs ++ mdTableColumns text }

/-! ## Specification-side definitions

These definitions follow the spec's wording (not the code) and are used
to state the claims that compare the code against the spec. -/

/-- Spec formula for one list's RRF contribution for a chunk:
`weight / (rrf_k + rank + 1)` with `rank` the 0-based position of the
chunk in the list, `0` if absent. -/
def rankContribution (w : ℚ) (k : Nat) (list : List RetrievalResult)
    (cid : String) : ℚ :=
  match list.findIdx? (fun r => r.chunkId = cid) with
  | some i => w / ((k : ℚ) + (i : ℚ) + 1)
  | none => 0

/-- Spec formula for the fused score of a chunk: sum of the per-list
contributions. -/
def rrfSpecScore (C : HybridCfg) (dense sparse : List RetrievalResult)
    (cid : String) : ℚ :=
  rankContribution C.denseWeight C.rrfK dense cid
    + rankContribution C.sparseWeight C.rrfK sparse cid

/-- First-occurrence deduplication by `chunk_id`, stated structurally:
keep the head and drop every later result with the same id. -/
def dedupFirstSpec : List RetrievalResult → List RetrievalResult
  | [] => []
  | r :: rest =>
    r :: dedupFirstSpec (rest.filter (fun x => x.chunkId ≠ r.chunkId))
  termination_by l => l.length
  decreasing_by
    simp only [List.length_cons]
    have := rest.length_filter_le (fun x => x.chunkId ≠ r.chunkId)
    omega

/-- Depth-based hierarchy tracking, as the parser implements it: walk
the section list, and on each heading of level `L` truncate the stack to
its first `L - 1` entries and push the heading text; every non-heading
section must carry the current stack, and every heading section the
stack just pushed. -/
def HierConsistent (start : List String) : List ParsedSection → Prop
  | [] => True
  | s :: rest =>
    if s.contentType = .heading then
      match s.headingLevel, s.headingText with
      | some l, some t =>
        s.sectionHierarchy = popWhileDepthGE start l ++ [t]
          ∧ HierConsistent (popWhileDepthGE start l ++ [t]) rest
      | _, _ => False
    else s.sectionHierarchy = start ∧ HierConsistent start rest

/-- Level-based hierarchy tracking, as the spec words it: the stack
holds `(level, text)` pairs and a heading of level `L` pops all entries
with level ≥ `L` from the top before pushing. -/
def specPop (stack : List (Nat × String)) (level : Nat) : List (Nat × String) :=
  ((stack.reverse).dropWhile (fun e => level ≤ e.1)).reverse

def specHierStack (events : List (Nat × String)) : List (Nat × String) :=
  events.foldl (fun st e => specPop st e.1 ++ [e]) []

/-- The `section_hierarchy` the spec's level-based tracking predicts
after a sequence of heading events. -/
def specHierAfter (events : List (Nat × String)) : List String :=
  (specHierStack events).map Prod.snd

/-- Does the string contain a non-whitespace character? -/
def hasNonWs (s : String) : Bool := s.data.any (fun c => ¬ c.isWhitespace)

/-! ## Concrete fixtures for counterexamples and witnesses -/

/-- A one-section document whose section fits the token budget but whose
chunk gains a hierarchy prefix: content `"abcdef"` (2 tokens), hierarchy
`["H"]`. -/
def docPrefixOverflow : ParsedDocument :=
  ⟨"t.md", [{ content := "abcdef", contentType := .text, sectionHierarchy := ["H"] }]⟩

/-- Markdown source `"# T\nbody"`: one heading section and one text
section. -/
def docHeadingBody : ParsedDocument := ⟨"t.md", parseContent "# T\nbody" []⟩

/-- A document consisting of a single heading section (as parsed from
`"# T"`). -/
def docHeadingOnly : ParsedDocument := ⟨"t.md", parseContent "# T" []⟩

/-- A document whose only section is six spaces (2 tokens, no sentence
material). -/
def docBlank : ParsedDocument :=
  ⟨"t.md", [{ content := "      ", contentType := .text }]⟩

/-- Sentence of 29 `b`s and a period (30 characters, 10 tokens). -/
def longSentence : String := String.mk (List.replicate 29 'b') ++ "."

/-- One oversized text section `"ab." ++ longSentence` (33 characters,
11 tokens): splits into sentences `["ab.", longSentence]`. -/
def docOverlap : ParsedDocument :=
  ⟨"t.md", [{ content := "ab." ++ longSentence, contentType := .text }]⟩

/-- Semantic-chunker configuration with a 10-token budget and 5-token
overlap. -/
def cfgSmall : SemanticChunkerCfg := { chunkSize := 10, chunkOverlap := 5 }

/-- Concrete retrieval results for the fusion witnesses. -/
def resA : RetrievalResult :=
  { chunkId := "a", documentId := "d1", content := "A", score := 9/10, source := "dense" }

def resB : RetrievalResult :=
  { chunkId := "b", documentId := "d1", content := "B", score := 8/10, source := "dense" }

def resC : RetrievalResult :=
  { chunkId := "c", documentId := "d2", content := "C", score := 1/2, source := "sparse" }

/-- A concrete store hit used by the cross-reference witnesses. -/
def hitX : StoreHit :=
  { score := 1/2, chunkId := "x", documentId := "dX", content := "X" }

/-- A primary result of doc type `api_spec` with one entity name. -/
def resPrimary : RetrievalResult :=
  { chunkId := "p", documentId := "dP", content := "P", score := 1,
    metadata := { docType := "api_spec", entityNames := ["User"] }, source := "primary" }

/-- A store search function returning `hitX` for every related query. -/
def searchConstX : String → Nat → String → List StoreHit := fun _ _ _ => [hitX]

/-! ## Association-list (Python dict) lemmas -/

theorem dictGet?_cons {α : Type} (a : String) (b : α) (m : List (String × α))
    (k' : String) :
    dictGet? ((a, b) :: m) k' = if a = k' then some b else dictGet? m k' := by
  by_cases h : a = k' <;> simp [dictGet?, List.find?, h]

theorem dictGet?_pyDictSet {α : Type} (m : List (String × α)) (k k' : String) (v : α) :
    dictGet? (pyDictSet m k v) k' = if k' = k then some v else dictGet? m k' := by
  induction m with
  | nil =>
    show dictGet? [(k, v)] k' = _
    rw [dictGet?_cons]
    by_cases h : k' = k
    · rw [if_pos h.symm, if_pos h]
    · rw [if_neg (fun e => h e.symm), if_neg h]
  | cons kv m ih =>
    obtain ⟨a, b⟩ := kv
    show dictGet? (if a = k then (a, v) :: m else (a, b) :: pyDictSet m k v) k' = _
    by_cases h1 : a = k
    · rw [if_pos h1, dictGet?_cons, dictGet?_cons]
      by_cases h2 : a = k'
      · rw [if_pos h2, if_pos (h2.symm.trans h1)]
      · rw [if_neg h2, if_neg (fun e : k' = k => h2 (h1.trans e.symm)), if_neg h2]
    · rw [if_neg h1, dictGet?_cons, ih, dictGet?_cons]
      by_cases h2 : a = k'
      · rw [if_pos h2, if_neg (fun e : k' = k => h1 (h2.trans e)), if_pos h2]
      · rw [if_neg h2, if_neg h2]

theorem lastAssoc_cons {α : Type} (x : String × α) (l : List (String × α)) (k : String) :
    lastAssoc (x :: l) k =
      (lastAssoc l k).orElse (fun _ => if x.1 = k then some x.2 else none) := by
  by_cases h : x.1 = k <;>
    simp [lastAssoc, List.find?_append, h, Option.orElse] <;>
    cases (l.reverse.find? fun kv => kv.1 = k) <;> simp [h]

theorem lastAssoc_append {α : Type} (l₁ l₂ : List (String × α)) (k : String) :
    lastAssoc (l₁ ++ l₂) k = (lastAssoc l₂ k).orElse (fun _ => lastAssoc l₁ k) := by
  simp [lastAssoc, List.find?_append, Option.orElse]
  cases (l₂.reverse.find? fun kv => kv.1 = k) <;> simp

theorem dictGet?_dictLit (l : List (String × PValue)) (k : String) :
    dictGet? (dictLit l) k = lastAssoc l k := by
  suffices h : ∀ (l : List (String × PValue)) (m : List (String × PValue)),
      dictGet? (l.foldl (fun m kv => pyDictSet m kv.1 kv.2) m) k =
        (lastAssoc l k).orElse (fun _ => dictGet? m k) by
    have := h l []
    simpa [dictLit, lastAssoc, dictGet?, List.find?] using this
  intro l
  induction l with
  | nil => intro m; simp [lastAssoc, Option.orElse]
  | cons x rest ih =>
    intro m
    rw [List.foldl_cons, ih, lastAssoc_cons]
    rw [dictGet?_pyDictSet]
    cases hrest : lastAssoc rest k <;> by_cases hx : x.1 = k <;>
      simp [Option.orElse, hrest, hx]
    exact fun e => absurd e.symm hx

/-! ## Claim theorems and counterexamples -/

/-- Claim C10: `Chunk.to_payload` is the map sending each key to its
metadata value when the metadata defines it (so metadata overrides any
colliding fixed key), and otherwise to the corresponding entry among the
five fixed keys `chunk_id`, `document_id`, `content`, `content_type`
(the enum's string value) and `section_hierarchy`. -/
theorem C10_payload_map (c : Chunk) (k : String) :
    dictGet? c.toPayload k =
      (lastAssoc c.metadata k).orElse (fun _ =>
        dictGet? [("chunk_id", PValue.str c.chunkId),
                  ("document_id", PValue.str c.documentId),
                  ("content", PValue.str c.content),
                  ("content_type", PValue.str c.contentType.value),
                  ("section_hierarchy", PValue.strList c.sectionHierarchy)] k) := by
  show dictGet? (dictLit (payloadFixed c ++ c.metadata)) k = _
  rw [dictGet?_dictLit, lastAssoc_append]
  congr 1
  funext u
  have h5 : payloadFixed c = [("chunk_id", PValue.str c.chunkId),
      ("document_id", PValue.str c.documentId),
      ("content", PValue.str c.content),
      ("content_type", PValue.str c.contentType.value),
      ("section_hierarchy", PValue.strList c.sectionHierarchy)] := rfl
  rw [h5]
  by_cases h1 : k = "chunk_id" <;> by_cases h2 : k = "document_id" <;>
    by_cases h3 : k = "content" <;> by_cases h4 : k = "content_type" <;>
    by_cases h5 : k = "section_hierarchy" <;>
    simp_all [lastAssoc, dictGet?, List.find?, eq_comm]

/-- Claim C9 (code evaluation at the failing input): on
`"CREATE TABLE users (id INT PRIMARY KEY, name VARCHAR(50))"` the table
extractor yields `table_names = ["users"]` but a single column record
`id : "INT PRIMARY KEY, name VARCHAR(50"` — the greedy `[\w\(\),\s]*`
tail of `COLUMN_PATTERN` swallows the rest of the (itself truncated)
column body, instead of the two records `id : INT` and
`name : VARCHAR(50)` the claim states. -/
theorem C9_create_table_eval :
    tableExtractFromText "CREATE TABLE users (id INT PRIMARY KEY, name VARCHAR(50))" =
      { tableNames := ["users"],
        columnDefinitions := [ColumnsEntry.ddl "users"
          [{ name := "id", type := "INT PRIMARY KEY, name VARCHAR(50",
             nullable := true, primaryKey := true }]] } := by decide

/-- Claim C1 (counterexample): with `chunk_size = 2` the hierarchy
strategy turns the single 2-token section `"abcdef"` (within budget, so
never split) into the single chunk `"H\n\nabcdef"` of 3 estimated
tokens: the injected hierarchy prefix pushes the chunk over the budget
although its content type is TEXT and its source unit is within
budget. -/
theorem C1_budget_counterexample :
    (structureChunk { chunkSize := 2 } docPrefixOverflow "doc").map
        (fun c => (c.content, c.contentType)) = [("H\n\nabcdef", ContentType.text)]
      ∧ countTokens "H\n\nabcdef" = 3 ∧ ¬ (3 ≤ 2)
      ∧ countTokens "abcdef" ≤ 2 := by decide

/-- Claim C2 (counterexample): for the parsed document `"# T\nbody"` the
hierarchy strategy produces the single chunk `"T\n\nbody"`; after
stripping the injected prefix `"T\n\n"` only `"body"` remains, so the
heading section's content `"# T"` is covered by no chunk. -/
theorem C2_coverage_counterexample :
    docHeadingBody.sections.map (fun s => s.content) = ["# T", "body"]
      ∧ (structureChunk {} docHeadingBody "d").map (fun c => c.content) = ["T\n\nbody"]
      ∧ hierPrefixStr {} ["T"] = "T\n\n"
      ∧ ¬ strContains "body" "# T" := by decide

/-- Claim C3 (counterexample): parsing `"### B\nx\n## C\ny"` attaches
hierarchy `["B", "C"]` to the content section `"y"`, whereas popping by
entry level (as the claim states) would pop the level-3 entry `B` on the
level-2 heading `C` and predict `["C"]`: the parser pops by stack depth,
not by entry level. -/
theorem C3_heading_stack_counterexample :
    (parseContent "### B\nx\n## C\ny" []).map (fun s => (s.content, s.sectionHierarchy)) =
        [("### B", ["B"]), ("x", ["B"]), ("## C", ["B", "C"]), ("y", ["B", "C"])]
      ∧ specHierAfter [(3, "B"), (2, "C")] = ["C"]
      ∧ (["B", "C"] : List String) ≠ ["C"] := by decide

/-- Claim C6 (counterexample): the hierarchy strategy returns no chunk at
all for the non-empty document holding only the heading section of
`"# T"` (heading sections are dropped as group markers), and the
sentence strategy returns no chunk for a non-empty document whose only
section is six spaces under `chunk_size = 1` (over budget, but with no
sentence material to emit). -/
theorem C6_nonempty_counterexample :
    (structureChunk {} docHeadingOnly "doc" = [] ∧ docHeadingOnly.sections ≠ [])
      ∧ (semanticChunk { chunkSize := 1 } docBlank "doc" = [] ∧ docBlank.sections ≠ []) := by
  decide

/-- Claim C7 (counterexample): with `chunk_size = 10`, `chunk_overlap = 5`
the section `"ab." ++ longSentence` splits into sentences
`["ab.", longSentence]`; chunk 1 is `"ab."` and the carried overlap
`["ab."]` is chunk 1's *entire* sentence sequence — a suffix, but not a
strict one — so chunk 2 is `"ab. " ++ longSentence`. -/
theorem C7_overlap_counterexample :
    splitSentences ("ab." ++ longSentence) = ["ab.", longSentence]
      ∧ (semanticChunk cfgSmall docOverlap "doc").map (fun c => c.content) =
          ["ab.", "ab. " ++ longSentence]
      ∧ getOverlapSentences cfgSmall.chunkOverlap ["ab."] = ["ab."] := by decide

/-! ## Deduplication lemmas (CrossRefRetriever.retrieve) -/

theorem pyDedupFirstAux_eq_spec (l : List RetrievalResult) (seen : List String) :
    pyDedupFirstAux l seen =
      dedupFirstSpec (l.filter (fun r => !(seen.contains r.chunkId))) := by
  induction l generalizing seen with
  | nil => simp [pyDedupFirstAux, dedupFirstSpec]
  | cons r rest ih =>
    by_cases h : seen.contains r.chunkId
    · rw [show pyDedupFirstAux (r :: rest) seen = pyDedupFirstAux rest seen from
        if_pos h, List.filter_cons, ih]
      have hm : r.chunkId ∈ seen := by simpa using h
      simp [hm]
    · have h' : seen.contains r.chunkId = false := by simpa using h
      rw [show pyDedupFirstAux (r :: rest) seen =
            r :: pyDedupFirstAux rest (r.chunkId :: seen) from if_neg h,
        List.filter_cons]
      simp only [h', Bool.not_false, if_pos]
      rw [dedupFirstSpec, ih, List.filter_filter]
      suffices hf : (rest.filter (fun x => !(r.chunkId :: seen).contains x.chunkId)) =
          (rest.filter (fun x => decide (x.chunkId ≠ r.chunkId)
            && !(seen.contains x.chunkId))) by rw [hf]
      apply List.filter_congr
      intro x _
      by_cases he : x.chunkId = r.chunkId <;> simp [he, List.contains_cons]

theorem pyDedupFirst_eq_spec (l : List RetrievalResult) :
    pyDedupFirst l = dedupFirstSpec l := by
  rw [pyDedupFirst, pyDedupFirstAux_eq_spec]
  simp

theorem dedupFirstSpec_sublist (l : List RetrievalResult) :
    List.Sublist (dedupFirstSpec l) l := by
  induction l using dedupFirstSpec.induct with
  | case1 => simp [dedupFirstSpec]
  | case2 r rest ih =>
    rw [dedupFirstSpec]
    exact (ih.trans (List.filter_sublist rest)).cons₂ r

theorem dedupFirstSpec_nodup (l : List RetrievalResult) :
    ((dedupFirstSpec l).map (fun r => r.chunkId)).Nodup := by
  induction l using dedupFirstSpec.induct with
  | case1 => simp [dedupFirstSpec]
  | case2 r rest ih =>
    rw [dedupFirstSpec]
    simp only [List.map_cons, List.nodup_cons]
    refine ⟨?_, ih⟩
    intro hmem
    obtain ⟨x, hx, hcid⟩ := List.mem_map.mp hmem
    have hx' := (dedupFirstSpec_sublist _).mem hx
    have := (List.mem_filter.mp hx').2
    simp at this
    exact this hcid

theorem dedupFirstSpec_covers (l : List RetrievalResult) :
    ∀ r ∈ l, ∃ r' ∈ dedupFirstSpec l, r'.chunkId = r.chunkId := by
  induction l using dedupFirstSpec.induct with
  | case1 => simp
  | case2 r rest ih =>
    intro x hx
    rw [dedupFirstSpec]
    rcases List.mem_cons.mp hx with h | h
    · exact ⟨r, List.mem_cons_self .., by rw [h]⟩
    · by_cases hcid : x.chunkId = r.chunkId
      · exact ⟨r, List.mem_cons_self .., hcid.symm⟩
      · obtain ⟨r', hr', he⟩ := ih x (List.mem_filter.mpr ⟨h, by simpa using hcid⟩)
        exact ⟨r', List.mem_cons_of_mem _ hr', he⟩

/-- Claim C5: `CrossRefRetriever.retrieve` returns the primary results
followed by the cross-reference results, keeping for each `chunk_id`
only its first occurrence: the output is exactly the first-occurrence
deduplication of that concatenation, is a sublist of it, keeps every
`chunk_id`, and contains no duplicate `chunk_id`. -/
theorem C5_dedup_first (primarySearch : String → Nat → List StoreHit)
    (relatedSearch : String → Nat → String → List StoreHit)
    (maxCrossRefs : Nat) (query : String) (topK : Nat) :
    (crossRefRetrieve primarySearch relatedSearch maxCrossRefs query topK =
        dedupFirstSpec ((primarySearch query topK).map (hitToResult "primary" 1)
          ++ findCrossReferences relatedSearch maxCrossRefs
              ((primarySearch query topK).map (hitToResult "primary" 1))))
      ∧ List.Sublist (crossRefRetrieve primarySearch relatedSearch maxCrossRefs query topK)
          ((primarySearch query topK).map (hitToResult "primary" 1)
            ++ findCrossReferences relatedSearch maxCrossRefs
                ((primarySearch query topK).map (hitToResult "primary" 1)))
      ∧ ((crossRefRetrieve primarySearch relatedSearch maxCrossRefs query topK).map
          (fun r => r.chunkId)).Nodup
      ∧ ∀ r ∈ ((primarySearch query topK).map (hitToResult "primary" 1)
            ++ findCrossReferences relatedSearch maxCrossRefs
                ((primarySearch query topK).map (hitToResult "primary" 1))),
          ∃ r' ∈ crossRefRetrieve primarySearch relatedSearch maxCrossRefs query topK,
            r'.chunkId = r.chunkId := by
  have heq : crossRefRetrieve primarySearch relatedSearch maxCrossRefs query topK =
      dedupFirstSpec ((primarySearch query topK).map (hitToResult "primary" 1)
        ++ findCrossReferences relatedSearch maxCrossRefs
            ((primarySearch query topK).map (hitToResult "primary" 1))) :=
    pyDedupFirst_eq_spec _
  refine ⟨heq, ?_, ?_, ?_⟩
  · rw [heq]; exact dedupFirstSpec_sublist _
  · rw [heq]; exact dedupFirstSpec_nodup _
  · rw [heq]; exact dedupFirstSpec_covers _

/-- Closed witness for `C5_dedup_first`: instantiates its coverage part
at a concrete query over a two-hit store. -/
theorem C5_dedup_first_witness :
    ∃ r' ∈ crossRefRetrieve (fun _ _ => [hitX]) searchConstX 3 "q" 5,
      r'.chunkId = (hitToResult "primary" 1 hitX).chunkId :=
  (C5_dedup_first (fun _ _ => [hitX]) searchConstX 3 "q" 5).2.2.2
    (hitToResult "primary" 1 hitX)
    (List.mem_append_left _ (List.mem_map_of_mem _ (List.mem_singleton_self hitX)))

/-! ## Cross-reference expansion (C8) -/

theorem searchRelated_mem (search : String → Nat → String → List StoreHit)
    (maxCrossRefs : Nat) (entities : List String) (docType excl : String) :
    ∀ x ∈ searchRelated search maxCrossRefs entities docType excl,
      x.source = "cross_reference" ∧ x.documentId ≠ excl := by
  intro x hx
  unfold searchRelated at hx
  by_cases h : entities = []
  · simp [h] at hx
  · rw [if_neg h] at hx
    obtain ⟨hit, hmem, hx⟩ := List.mem_map.mp hx
    have hne := (List.mem_filter.mp hmem).2
    subst hx
    exact ⟨rfl, by simpa using hne⟩

/-- Claim C8: every secondary result spawned by a primary hit is tagged
`cross_reference` and has a `document_id` different from that primary
hit's; at most `max_cross_refs` secondary results are kept per primary
hit; and every `cross_reference`-tagged result returned by
`CrossRefRetriever.retrieve` was spawned by one of the primary hits. -/
theorem C8_cross_ref_distinct (relatedSearch : String → Nat → String → List StoreHit)
    (maxCrossRefs : Nat) :
    (∀ rp : RetrievalResult,
        (crossRefsForHit relatedSearch maxCrossRefs rp).length ≤ maxCrossRefs)
      ∧ (∀ rp : RetrievalResult, ∀ x ∈ crossRefsForHit relatedSearch maxCrossRefs rp,
          x.source = "cross_reference" ∧ x.documentId ≠ rp.documentId)
      ∧ (∀ (primarySearch : String → Nat → List StoreHit) (query : String) (topK : Nat),
          ∀ x ∈ crossRefRetrieve primarySearch relatedSearch maxCrossRefs query topK,
            x.source = "cross_reference" →
            ∃ rp, rp ∈ (primarySearch query topK).map (hitToResult "primary" 1)
              ∧ x ∈ crossRefsForHit relatedSearch maxCrossRefs rp) := by
  refine ⟨?_, ?_, ?_⟩
  · intro rp
    unfold crossRefsForHit
    split
    · exact List.length_take_le ..
    · split
      · exact List.length_take_le ..
      · simp
  · intro rp x hx
    unfold crossRefsForHit at hx
    split at hx
    · exact searchRelated_mem _ _ _ _ _ x ((List.take_sublist _ _).mem hx)
    · split at hx
      · exact searchRelated_mem _ _ _ _ _ x ((List.take_sublist _ _).mem hx)
      · simp at hx
  · intro primarySearch query topK x hx hsrc
    have hx' : x ∈ (primarySearch query topK).map (hitToResult "primary" 1)
        ++ findCrossReferences relatedSearch maxCrossRefs
            ((primarySearch query topK).map (hitToResult "primary" 1)) := by
      have := pyDedupFirst_eq_spec ((primarySearch query topK).map (hitToResult "primary" 1)
        ++ findCrossReferences relatedSearch maxCrossRefs
            ((primarySearch query topK).map (hitToResult "primary" 1)))
      exact (dedupFirstSpec_sublist _).mem (this ▸ hx)
    rcases List.mem_append.mp hx' with h | h
    · obtain ⟨hit, _, hxeq⟩ := List.mem_map.mp h
      rw [← hxeq] at hsrc
      simp [hitToResult] at hsrc
    · obtain ⟨inner, hinner, hxin⟩ := List.mem_flatten.mp h
      obtain ⟨rp, hrp, hlist⟩ := List.mem_map.mp hinner
      exact ⟨rp, hrp, hlist ▸ hxin⟩

/-- Closed witness for `C8_cross_ref_distinct`: the concrete primary
hit `resPrimary` (doc type `api_spec`) spawns, over the constant store
`searchConstX`, secondary results that are tagged and deduplicated as
the theorem states. -/
theorem C8_cross_ref_distinct_witness :
    (hitToResult "cross_reference" (8/10) hitX).source = "cross_reference"
      ∧ (hitToResult "cross_reference" (8/10) hitX).documentId ≠ resPrimary.documentId :=
  (C8_cross_ref_distinct searchConstX 3).2.1 resPrimary
    (hitToResult "cross_reference" (8/10) hitX)
    (show _ ∈ [hitToResult "cross_reference" (8/10) hitX] from
      List.mem_singleton_self _)

/-! ## Heading-hierarchy tracking (C3) -/

theorem detectContentType_ne_heading (content : String) :
    detectContentType content ≠ .heading := by
  unfold detectContentType
  split
  · simp
  · split <;> simp

theorem createSections_all (cbs : CodeBlocks) (h : Option String) (lv : Option Nat)
    (hier : List String) :
    ∀ (content : String), ∀ sec ∈ createSections h lv hier cbs content,
      sec.sectionHierarchy = hier ∧ sec.contentType ≠ .heading := by
  induction cbs with
  | nil =>
    intro content sec hsec
    unfold createSections at hsec
    split at hsec
    · rw [List.mem_singleton] at hsec
      subst hsec
      exact ⟨rfl, detectContentType_ne_heading content⟩
    · simp at hsec
  | cons cb rest ih =>
    obtain ⟨ph, lang, code⟩ := cb
    intro content sec hsec
    unfold createSections at hsec
    split at hsec
    · dsimp only at hsec
      rcases List.mem_append.mp hsec with hmem | hmem
      · rcases List.mem_append.mp hmem with hmem | hmem
        · split at hmem
          · rw [List.mem_singleton] at hmem
            subst hmem
            exact ⟨rfl, detectContentType_ne_heading _⟩
          · simp at hmem
        · rw [List.mem_singleton] at hmem
          subst hmem
          exact ⟨rfl, by simp⟩
      · exact ih _ sec hmem
    · exact ih _ sec hsec

theorem hierConsistent_all (start : List String) :
    ∀ (A : List ParsedSection),
      (∀ sec ∈ A, sec.sectionHierarchy = start ∧ sec.contentType ≠ .heading) →
      HierConsistent start A := by
  intro A
  induction A with
  | nil => intro _; trivial
  | cons a A' ih =>
    intro hall
    have ha := hall a (List.mem_cons_self ..)
    show HierConsistent start (a :: A')
    unfold HierConsistent
    rw [if_neg ha.2]
    exact ⟨ha.1, ih (fun sec hs => hall sec (List.mem_cons_of_mem _ hs))⟩

theorem hierConsistent_append (start : List String) (A B : List ParsedSection)
    (hA : ∀ sec ∈ A, sec.sectionHierarchy = start ∧ sec.contentType ≠ .heading)
    (hB : HierConsistent start B) : HierConsistent start (A ++ B) := by
  induction A with
  | nil => simpa using hB
  | cons a A' ih =>
    have ha := hA a (List.mem_cons_self ..)
    show HierConsistent start (a :: (A' ++ B))
    unfold HierConsistent
    rw [if_neg ha.2]
    exact ⟨ha.1, ih (fun sec hs => hA sec (List.mem_cons_of_mem _ hs))⟩

theorem parseLinesAux_hierConsistent (cbs : CodeBlocks) (lines : List String) :
    ∀ (hier curLines : List String) (ch : Option String) (cl : Option Nat),
      HierConsistent hier (parseLinesAux cbs lines hier curLines ch cl) := by
  induction lines with
  | nil =>
    intro hier curLines ch cl
    unfold parseLinesAux
    split
    · dsimp only
      split
      · exact hierConsistent_all hier _ (createSections_all cbs ch cl hier _)
      · trivial
    · trivial
  | cons line rest ih =>
    intro hier curLines ch cl
    unfold parseLinesAux
    cases hm : headingMatch line with
    | none => exact ih hier _ ch cl
    | some lt =>
      obtain ⟨level, text⟩ := lt
      refine hierConsistent_append hier _ _ ?_ ?_
      · dsimp only
        split
        · split
          · exact createSections_all cbs ch cl hier _
          · simp
        · simp
      · show HierConsistent hier
          ({ content := line, contentType := .heading, headingLevel := some level,
             headingText := some text,
             sectionHierarchy := popWhileDepthGE hier level ++ [text] } ::
            parseLinesAux cbs rest (popWhileDepthGE hier level ++ [text]) []
              (some text) (some level))
        unfold HierConsistent
        rw [if_pos rfl]
        exact ⟨rfl, ih _ _ _ _⟩

/-- Claim C3 (amended): on a heading of level `L` the parser pops stack
entries by *depth* — it truncates the stack to its first `L - 1` entries
— then pushes the new heading text; the resulting stack is the
`section_hierarchy` attached to every subsequent content section until
the next heading (and to the heading section itself).  `HierConsistent`
walks the parsed sections checking exactly this. -/
theorem C3_heading_stack_depth (contentNoCode : String) (cbs : CodeBlocks) :
    HierConsistent [] (parseContent contentNoCode cbs) :=
  parseLinesAux_hierConsistent cbs (splitLines contentNoCode) [] [] none none

/-! ## Non-emptiness of the chunkers (C6) -/

theorem append_ne_nil_left {α : Type} {p : List α} (q : List α) (h : p ≠ []) :
    p ++ q ≠ [] := by
  intro he
  exact h (List.append_eq_nil.mp he).1

theorem append_ne_nil_right {α : Type} (p : List α) {q : List α} (h : q ≠ []) :
    p ++ q ≠ [] := by
  intro he
  exact h (List.append_eq_nil.mp he).2

theorem mem_dropWhile_of_not {α : Type} (p : α → Bool) (l : List α) (x : α)
    (hx : x ∈ l) (hp : p x = false) : x ∈ l.dropWhile p := by
  have hsplit := List.takeWhile_append_dropWhile (p := p) (l := l)
  rcases List.mem_append.mp (hsplit ▸ hx) with h | h
  · exact absurd (List.mem_takeWhile_imp h) (by simp [hp])
  · exact h

theorem pyStrip_mem (s : String) (x : Char) (hx : x ∈ s.data)
    (hws : x.isWhitespace = false) : x ∈ (pyStrip s).data := by
  show x ∈ ((s.data.dropWhile Char.isWhitespace).reverse.dropWhile Char.isWhitespace).reverse
  rw [List.mem_reverse]
  exact mem_dropWhile_of_not _ _ _
    (List.mem_reverse.mpr (mem_dropWhile_of_not _ _ _ hx hws)) hws

theorem pyStrip_ne_empty (s : String) (h : ∃ x ∈ s.data, x.isWhitespace = false) :
    pyStrip s ≠ "" := by
  obtain ⟨x, hx, hws⟩ := h
  intro he
  have := pyStrip_mem s x hx hws
  rw [he] at this
  simp at this

theorem exists_not_of_dropWhile_ne_nil {α : Type} (p : α → Bool) (l : List α)
    (h : l.dropWhile p ≠ []) : ∃ x ∈ l.dropWhile p, p x = false := by
  induction l with
  | nil => simp at h
  | cons c cs ih =>
    by_cases hc : p c
    · rw [List.dropWhile_cons_of_pos hc] at h ⊢
      exact ih h
    · rw [List.dropWhile_cons_of_neg hc] at h ⊢
      exact ⟨c, List.mem_cons_self .., by simpa using hc⟩

theorem pyStrip_hasNonWs (s : String) (h : pyStrip s ≠ "") :
    ∃ x ∈ (pyStrip s).data, x.isWhitespace = false := by
  have hd : (pyStrip s).data ≠ [] := by
    intro he
    exact h (by cases hps : pyStrip s with | mk d => simp_all)
  show ∃ x ∈ ((s.data.dropWhile Char.isWhitespace).reverse.dropWhile
      Char.isWhitespace).reverse, x.isWhitespace = false
  have hd' : (s.data.dropWhile Char.isWhitespace).reverse.dropWhile
      Char.isWhitespace ≠ [] := by
    intro he
    exact hd (by
      show ((s.data.dropWhile Char.isWhitespace).reverse.dropWhile
        Char.isWhitespace).reverse = []
      rw [he]; rfl)
  obtain ⟨x, hx, hws⟩ := exists_not_of_dropWhile_ne_nil _ _ hd'
  exact ⟨x, List.mem_reverse.mpr hx, hws⟩

theorem isSentenceEnding_not_ws (c : Char) (h : isSentenceEnding c = true) :
    c.isWhitespace = false := by
  unfold isSentenceEnding at h
  simp only [Bool.or_eq_true, decide_eq_true_eq] at h
  rcases h with ((((h | h) | h) | h) | h) | h <;> subst h <;> decide

theorem splitSentencesAux_ne_nil (cs : List Char) :
    ∀ (cur : List Char),
      ((∃ x ∈ cur, x.isWhitespace = false) ∨ ∃ x ∈ cs, x.isWhitespace = false) →
      splitSentencesAux cs cur ≠ [] := by
  induction cs with
  | nil =>
    intro cur h
    rcases h with h | h
    · unfold splitSentencesAux
      dsimp only
      rw [if_neg]
      · simp
      · obtain ⟨x, hx, hws⟩ := h
        exact pyStrip_ne_empty _ ⟨x, by simpa using List.mem_reverse.mpr hx, hws⟩
    · simp at h
  | cons c cs' ih =>
    intro cur h
    unfold splitSentencesAux
    by_cases hend : isSentenceEnding c
    · rw [if_pos hend]
      dsimp only
      rw [if_neg (pyStrip_ne_empty _
        ⟨c, by simp, isSentenceEnding_not_ws c hend⟩)]
      simp
    · rw [if_neg hend]
      apply ih
      rcases h with ⟨x, hx, hws⟩ | ⟨x, hx, hws⟩
      · exact Or.inl ⟨x, List.mem_cons_of_mem _ hx, hws⟩
      · rcases List.mem_cons.mp hx with he | hm
        · exact Or.inl ⟨x, he ▸ List.mem_cons_self .., hws⟩
        · exact Or.inr ⟨x, hm, hws⟩

theorem splitSentences_ne_nil (text : String) (h : hasNonWs text = true) :
    splitSentences text ≠ [] := by
  apply splitSentencesAux_ne_nil text.data []
  right
  simpa [hasNonWs] using h

theorem splitSentences_mem_hasNonWs (text : String) :
    ∀ s ∈ splitSentences text, ∃ x ∈ s.data, x.isWhitespace = false := by
  suffices haux : ∀ (cs cur : List Char), ∀ s ∈ splitSentencesAux cs cur,
      ∃ x ∈ s.data, x.isWhitespace = false from haux text.data []
  intro cs
  induction cs with
  | nil =>
    intro cur s hs
    unfold splitSentencesAux at hs
    dsimp only at hs
    split at hs
    · simp at hs
    · rw [List.mem_singleton] at hs
      subst hs
      next hne => exact pyStrip_hasNonWs _ hne
  | cons c cs' ih =>
    intro cur s hs
    unfold splitSentencesAux at hs
    split at hs
    · dsimp only at hs
      split at hs
      · exact ih _ s hs
      · rcases List.mem_cons.mp hs with he | hm
        · subst he
          next hne => exact pyStrip_hasNonWs _ hne
        · exact ih _ s hm
    · exact ih _ s hs

theorem pySplitWsAux_ne_nil (cs : List Char) :
    ∀ (cur : List Char),
      ((∃ x ∈ cs, x.isWhitespace = false) ∨ cur ≠ []) →
      pySplitWsAux cs cur ≠ [] := by
  induction cs with
  | nil =>
    intro cur h
    rcases h with h | h
    · simp at h
    · unfold pySplitWsAux
      rw [if_neg h]
      simp
  | cons c cs' ih =>
    intro cur h
    unfold pySplitWsAux
    by_cases hc : c.isWhitespace
    · rw [if_pos hc]
      split
      · apply ih
        left
        rcases h with ⟨x, hx, hws⟩ | h
        · rcases List.mem_cons.mp hx with he | hm
          · exact absurd (he ▸ hc) (by simp [hws])
          · exact ⟨x, hm, hws⟩
        · simp_all
      · simp
    · rw [if_neg hc]
      exact ih (c :: cur) (Or.inr (by simp))

theorem splitLongTextAux_ne_nil (cs : Nat) (ws : List String) :
    ∀ (curWords : List String) (curLen : Nat),
      (ws ≠ [] ∨ curWords ≠ []) → splitLongTextAux cs ws curWords curLen ≠ [] := by
  induction ws with
  | nil =>
    intro curWords curLen h
    unfold splitLongTextAux
    rcases h with h | h
    · simp at h
    · rw [if_neg h]; simp
  | cons w ws' ih =>
    intro curWords curLen _
    unfold splitLongTextAux
    dsimp only
    split
    · exact List.append_ne_nil_of_right_ne_nil _ (ih [w] _ (Or.inr (by simp)))
    · exact ih (curWords ++ [w]) _ (Or.inr (by simp))

theorem splitLongText_ne_nil (cs : Nat) (text : String)
    (h : ∃ x ∈ text.data, x.isWhitespace = false) : splitLongText cs text ≠ [] :=
  splitLongTextAux_ne_nil cs _ [] 0
    (Or.inl (pySplitWsAux_ne_nil text.data [] (Or.inl h)))

theorem semLoop_ne_nil (C : SemanticChunkerCfg) (ss : List String) :
    ∀ (cur : List String) (len : Nat),
      (∀ s ∈ ss, ∃ x ∈ s.data, x.isWhitespace = false) →
      (ss ≠ [] ∨ cur ≠ []) → semLoop C ss cur len ≠ [] := by
  induction ss with
  | nil =>
    intro cur len _ h
    rcases h with h | h
    · simp at h
    · unfold semLoop
      rw [if_neg h]
      simp
  | cons s rest ih =>
    intro cur len hall _
    unfold semLoop
    dsimp only
    split
    · apply append_ne_nil_left
      apply append_ne_nil_right
      simpa using splitLongText_ne_nil C.chunkSize s (hall s (List.mem_cons_self ..))
    · split
      · split
        · exact ih _ _ (fun t ht => hall t (List.mem_cons_of_mem _ ht))
            (Or.inr (by simp))
        · simp
      · exact ih _ _ (fun t ht => hall t (List.mem_cons_of_mem _ ht))
          (Or.inr (by simp))

theorem chunkSection_ne_nil (C : SemanticChunkerCfg) (documentId content : String)
    (contentType : ContentType) (hier : List String) (md : List (String × PValue))
    (h : countTokens content ≤ C.chunkSize ∨ hasNonWs content = true) :
    chunkSection C documentId content contentType hier md ≠ [] := by
  unfold chunkSection
  split
  · simp
  · split
    · simp
    · next hbig _ =>
      have hnw : hasNonWs content = true := by
        rcases h with h | h
        · exact absurd h hbig
        · exact h
      simp only [ne_eq, List.map_eq_nil_iff]
      exact semLoop_ne_nil C _ [] 0 (splitSentences_mem_hasNonWs content)
        (Or.inl (splitSentences_ne_nil content hnw))

theorem flatten_map_ne_nil {α β : Type} (f : α → List β) (l : List α) (x : α)
    (hx : x ∈ l) (hfx : f x ≠ []) : (l.map f).flatten ≠ [] := by
  obtain ⟨s, t, rfl⟩ := List.append_of_mem hx
  intro he
  simp only [List.map_append, List.map_cons, List.flatten_append,
    List.flatten_cons, List.append_eq_nil] at he
  exact hfx he.2.1

theorem groupSectionsAux_ne_nil (sections : List ParsedSection) :
    ∀ (curHier : List String) (curSecs : List ParsedSection),
      ((∃ s ∈ sections, s.contentType ≠ .heading) ∨ curSecs ≠ []) →
      groupSectionsAux sections curHier curSecs ≠ [] := by
  induction sections with
  | nil =>
    intro curHier curSecs h
    rcases h with h | h
    · simp at h
    · unfold groupSectionsAux
      rw [if_neg h]
      simp
  | cons s rest ih =>
    intro curHier curSecs h
    unfold groupSectionsAux
    split
    · next hhead =>
      by_cases hcur : curSecs = []
      · rw [if_pos hcur]
        apply ih
        left
        rcases h with ⟨x, hx, hne⟩ | h
        · rcases List.mem_cons.mp hx with he | hm
          · exact absurd (he ▸ hne) (by simp [hhead])
          · exact ⟨x, hm, hne⟩
        · exact absurd hcur h
      · rw [if_neg hcur]
        exact List.append_ne_nil_of_left_ne_nil (by simp) _
    · split
      · exact fun he => (List.append_ne_nil_of_right_ne_nil _
          (ih _ [s] (Or.inr (by simp)))) he
      · exact ih _ (curSecs ++ [s]) (Or.inr (by simp))

theorem groupSectionsAux_groups_ne_nil (sections : List ParsedSection) :
    ∀ (curHier : List String) (curSecs : List ParsedSection),
      ∀ g ∈ groupSectionsAux sections curHier curSecs, g.2 ≠ [] := by
  induction sections with
  | nil =>
    intro curHier curSecs g hg
    unfold groupSectionsAux at hg
    split at hg
    · simp at hg
    · next hne =>
      rw [List.mem_singleton] at hg
      subst hg
      exact hne
  | cons s rest ih =>
    intro curHier curSecs g hg
    unfold groupSectionsAux at hg
    split at hg
    · rcases List.mem_append.mp hg with hm | hm
      · split at hm
        · simp at hm
        · next hne =>
          rw [List.mem_singleton] at hm
          subst hm
          exact hne
      · exact ih _ _ g hm
    · split at hg
      · rcases List.mem_append.mp hg with hm | hm
        · split at hm
          · simp at hm
          · next hne =>
            rw [List.mem_singleton] at hm
            subst hm
            exact hne
        · exact ih _ _ g hm
      · exact ih _ _ g hg

theorem splitOnCharAux_ne_nil (sep : Char) (cs : List Char) :
    ∀ (cur : List Char), splitOnCharAux sep cs cur ≠ [] := by
  induction cs with
  | nil => intro cur; simp [splitOnCharAux]
  | cons c cs' ih =>
    intro cur
    unfold splitOnCharAux
    split
    · simp
    · exact ih (c :: cur)

theorem splitLargeLinesAux_ne_nil (C : StructureChunkerCfg) (documentId : String)
    (contentType : ContentType) (hier : List String) (lines : List String) :
    ∀ (curLines : List String) (curTokens : Nat),
      (lines ≠ [] ∨ curLines ≠ []) →
      splitLargeLinesAux C documentId contentType hier lines curLines curTokens ≠ [] := by
  induction lines with
  | nil =>
    intro curLines curTokens h
    rcases h with h | h
    · simp at h
    · unfold splitLargeLinesAux
      rw [if_neg h]
      simp
  | cons line rest ih =>
    intro curLines curTokens _
    unfold splitLargeLinesAux
    dsimp only
    split
    · simp
    · exact ih (curLines ++ [line]) _ (Or.inr (by simp))

theorem splitLargeContent_ne_nil (C : StructureChunkerCfg) (content : String)
    (contentType : ContentType) (documentId : String) (hier : List String) :
    splitLargeContent C content contentType documentId hier ≠ [] := by
  unfold splitLargeContent
  split
  · simp
  · exact splitLargeLinesAux_ne_nil C documentId contentType hier _ [] 0
      (Or.inl (splitOnCharAux_ne_nil '\n' content.data []))

theorem structLoop_ne_nil (C : StructureChunkerCfg) (documentId : String)
    (hier : List String) (parts : List (String × ContentType)) :
    ∀ (curContent : List String) (curTokens : Nat) (curTypes : List ContentType),
      (parts ≠ [] ∨ curContent ≠ []) →
      structLoop C documentId hier parts curContent curTokens curTypes ≠ [] := by
  induction parts with
  | nil =>
    intro curContent curTokens curTypes h
    rcases h with h | h
    · simp at h
    · unfold structLoop
      rw [if_neg h]
      simp
  | cons p rest ih =>
    intro curContent curTokens curTypes _
    obtain ⟨content, contentType⟩ := p
    unfold structLoop
    dsimp only
    split
    · apply append_ne_nil_left
      exact append_ne_nil_right _ (splitLargeContent_ne_nil C content contentType documentId hier)
    · split
      · simp
      · exact ih _ _ _ (Or.inr (by simp))

theorem chunkSectionGroup_ne_nil (C : StructureChunkerCfg)
    (sections : List ParsedSection) (documentId : String) (hier : List String)
    (h : sections ≠ []) : chunkSectionGroup C sections documentId hier ≠ [] := by
  unfold chunkSectionGroup
  dsimp only
  split
  · simp
  · apply structLoop_ne_nil
    left
    simpa using h

/-- Claim C6 (amended): the hierarchy strategy returns at least one chunk
for every document with at least one non-HEADING section (heading
sections are dropped as group markers), and the sentence strategy for
every document with at least one section that is within the token budget
or whose content contains a non-whitespace character (a whitespace-only
oversized section yields no sentences and hence no chunks).  Neither
strategy can fail: both are total functions. -/
theorem C6_nonempty_chunks :
    (∀ (C : StructureChunkerCfg) (doc : ParsedDocument) (documentId : String),
        (∃ s ∈ doc.sections, s.contentType ≠ .heading) →
        structureChunk C doc documentId ≠ [])
      ∧ (∀ (C : SemanticChunkerCfg) (doc : ParsedDocument) (documentId : String),
          (∃ s ∈ doc.sections, countTokens s.content ≤ C.chunkSize
            ∨ hasNonWs s.content = true) →
          semanticChunk C doc documentId ≠ []) := by
  constructor
  · intro C doc documentId h
    unfold structureChunk
    have hgroups : groupSectionsByHierarchy doc.sections ≠ [] :=
      groupSectionsAux_ne_nil doc.sections [] [] (Or.inl h)
    obtain ⟨g, gs, hg⟩ := List.exists_cons_of_ne_nil hgroups
    apply flatten_map_ne_nil _ _ g (by rw [hg]; exact List.mem_cons_self ..)
    exact chunkSectionGroup_ne_nil C g.2 documentId g.1
      (groupSectionsAux_groups_ne_nil doc.sections [] [] g
        (by rw [show groupSectionsAux doc.sections [] [] =
            groupSectionsByHierarchy doc.sections from rfl, hg]
            exact List.mem_cons_self ..))
  · intro C doc documentId h
    obtain ⟨s, hs, hprop⟩ := h
    unfold semanticChunk
    exact flatten_map_ne_nil _ _ s hs
      (chunkSection_ne_nil C documentId s.content s.contentType s.sectionHierarchy
        (sectionMetaPairs s) hprop)

/-- Closed witness for `C6_nonempty_chunks`: both chunkers produce at
least one chunk for the parsed document of `"# T\nbody"` (which has the
non-heading, non-blank section `"body"`). -/
theorem C6_nonempty_chunks_witness :
    structureChunk {} docHeadingBody "d" ≠ [] ∧ semanticChunk {} docHeadingBody "d" ≠ [] :=
  ⟨C6_nonempty_chunks.1 {} docHeadingBody "d" (by decide),
   C6_nonempty_chunks.2 {} docHeadingBody "d" (by decide)⟩

/-! ## Overlap properties (C7) -/

theorem getOverlapAux_suffix (co : Nat) (rl : List String) :
    ∀ (ot : Nat) (acc : List String), getOverlapAux co rl ot acc <:+ rl.reverse ++ acc := by
  induction rl with
  | nil =>
    intro ot acc
    simp [getOverlapAux]
  | cons s rest ih =>
    intro ot acc
    unfold getOverlapAux
    split
    · have := ih (ot + countTokens s) (s :: acc)
      rwa [List.reverse_cons, List.append_assoc, List.singleton_append]
    · exact List.suffix_append _ _

theorem getOverlapSentences_suffix (co : Nat) (ss : List String) :
    getOverlapSentences co ss <:+ ss := by
  unfold getOverlapSentences
  split
  · simp
  · have := getOverlapAux_suffix co ss.reverse 0 []
    rwa [List.reverse_reverse, List.append_nil] at this

theorem getOverlapAux_sum (co : Nat) (rl : List String) :
    ∀ (ot : Nat) (acc : List String), ot = sumTokens acc → ot ≤ co →
      sumTokens (getOverlapAux co rl ot acc) ≤ co := by
  induction rl with
  | nil =>
    intro ot acc hacc hle
    simpa [getOverlapAux, ← hacc] using hle
  | cons s rest ih =>
    intro ot acc hacc hle
    unfold getOverlapAux
    split
    · next hfit =>
      apply ih
      · simp [sumTokens, hacc, Nat.add_comm]
      · exact hfit
    · rw [← hacc]; exact hle

theorem getOverlapSentences_sum (co : Nat) (ss : List String) :
    sumTokens (getOverlapSentences co ss) ≤ co := by
  unfold getOverlapSentences
  split
  · simp [sumTokens]
  · exact getOverlapAux_sum co ss.reverse 0 [] (by simp [sumTokens]) (Nat.zero_le co)

theorem semLoop_nil (C : SemanticChunkerCfg) (cur : List String) (len : Nat) :
    semLoop C [] cur len = if cur = [] then [] else [cur] := by
  conv_lhs => rw [semLoop]

theorem semLoop_cons_big (C : SemanticChunkerCfg) (s : String) (rest cur : List String)
    (len : Nat) (hbig : countTokens s > C.chunkSize) :
    semLoop C (s :: rest) cur len =
      (if cur = [] then [] else [cur])
        ++ (splitLongText C.chunkSize s).map (fun t => [t]) ++ semLoop C rest [] 0 := by
  conv_lhs => rw [semLoop]
  rw [if_pos hbig]

theorem semLoop_cons_flush (C : SemanticChunkerCfg) (s : String) (rest cur : List String)
    (len : Nat) (hbig : ¬ countTokens s > C.chunkSize)
    (hover : len + countTokens s > C.chunkSize) (hcur : cur ≠ []) :
    semLoop C (s :: rest) cur len =
      cur :: semLoop C rest (getOverlapSentences C.chunkOverlap cur ++ [s])
        (sumTokens (getOverlapSentences C.chunkOverlap cur) + countTokens s) := by
  conv_lhs => rw [semLoop]
  rw [if_neg hbig, if_pos hover, if_neg hcur]

theorem semLoop_cons_acc (C : SemanticChunkerCfg) (s : String) (rest cur : List String)
    (len : Nat) (hbig : ¬ countTokens s > C.chunkSize)
    (h : ¬ (len + countTokens s > C.chunkSize) ∨ cur = []) :
    semLoop C (s :: rest) cur len =
      semLoop C rest (cur ++ [s]) (len + countTokens s) := by
  conv_lhs => rw [semLoop]
  rw [if_neg hbig]
  by_cases hover : len + countTokens s > C.chunkSize
  · rw [if_pos hover, if_pos (h.resolve_left (fun hn => hn hover))]
  · rw [if_neg hover]

theorem semLoop_head_prefix (C : SemanticChunkerCfg) (ss : List String) :
    ∀ (cur : List String) (len : Nat), cur ≠ [] →
      ∃ g gs, semLoop C ss cur len = g :: gs ∧ cur <+: g := by
  induction ss with
  | nil =>
    intro cur len hcur
    refine ⟨cur, [], ?_, List.prefix_refl cur⟩
    rw [semLoop_nil, if_neg hcur]
  | cons s rest ih =>
    intro cur len hcur
    by_cases hbig : countTokens s > C.chunkSize
    · rw [semLoop_cons_big C s rest cur len hbig, if_neg hcur]
      exact ⟨cur, (splitLongText C.chunkSize s).map (fun t => [t]) ++ semLoop C rest [] 0,
        by simp, List.prefix_refl cur⟩
    · by_cases hover : len + countTokens s > C.chunkSize
      · rw [semLoop_cons_flush C s rest cur len hbig hover hcur]
        exact ⟨cur, _, rfl, List.prefix_refl cur⟩
      · rw [semLoop_cons_acc C s rest cur len hbig (Or.inl hover)]
        obtain ⟨g, gs, heq, hpre⟩ := ih (cur ++ [s]) (len + countTokens s) (by simp)
        exact ⟨g, gs, heq, (List.prefix_append cur [s]).trans hpre⟩

/-- Claim C7 (amended): in the sentence-accumulation loop, when the next
sentence `s` (itself within budget) would overflow the running chunk
`cur`, chunk N = `cur` is flushed and the carried overlap
`getOverlapSentences chunk_overlap cur` — a suffix of chunk N's sentence
sequence (possibly the whole of it), with cumulative estimated token
count ≤ `chunk_overlap` — seeds the continuation, whose first produced
chunk N+1 begins with exactly that overlap. -/
theorem C7_overlap_suffix (C : SemanticChunkerCfg) (s : String)
    (rest cur : List String) (len : Nat)
    (hsmall : ¬ countTokens s > C.chunkSize)
    (hover : len + countTokens s > C.chunkSize)
    (hcur : cur ≠ []) :
    semLoop C (s :: rest) cur len =
        cur :: semLoop C rest (getOverlapSentences C.chunkOverlap cur ++ [s])
          (sumTokens (getOverlapSentences C.chunkOverlap cur) + countTokens s)
      ∧ getOverlapSentences C.chunkOverlap cur <:+ cur
      ∧ sumTokens (getOverlapSentences C.chunkOverlap cur) ≤ C.chunkOverlap
      ∧ ∃ g gs,
          semLoop C rest (getOverlapSentences C.chunkOverlap cur ++ [s])
              (sumTokens (getOverlapSentences C.chunkOverlap cur) + countTokens s) =
            g :: gs
          ∧ getOverlapSentences C.chunkOverlap cur <+: g := by
  refine ⟨?_, getOverlapSentences_suffix _ cur, getOverlapSentences_sum _ cur, ?_⟩
  · exact semLoop_cons_flush C s rest cur len hsmall hover hcur
  · obtain ⟨g, gs, heq, hpre⟩ := semLoop_head_prefix C rest
      (getOverlapSentences C.chunkOverlap cur ++ [s])
      (sumTokens (getOverlapSentences C.chunkOverlap cur) + countTokens s) (by simp)
    exact ⟨g, gs, heq, (List.prefix_append _ [s]).trans hpre⟩

/-- Closed witness for `C7_overlap_suffix`: the flush reached in the run
of `C7_overlap_counterexample` (budget 10, overlap 5, chunk N =
`["ab."]`, next sentence `longSentence`). -/
theorem C7_overlap_suffix_witness :
    getOverlapSentences cfgSmall.chunkOverlap ["ab."] <:+ ["ab."]
      ∧ sumTokens (getOverlapSentences cfgSmall.chunkOverlap ["ab."]) ≤
          cfgSmall.chunkOverlap :=
  (fun h => ⟨h.2.1, h.2.2.1⟩)
    (C7_overlap_suffix cfgSmall longSentence [] ["ab."] 1
      (by decide) (by decide) (by decide))

/-! ## Content coverage (C2) -/

theorem chunkSection_small (C : SemanticChunkerCfg) (documentId content : String)
    (contentType : ContentType) (hier : List String) (md : List (String × PValue))
    (h : countTokens content ≤ C.chunkSize) :
    chunkSection C documentId content contentType hier md =
      [Chunk.create documentId content contentType hier md] := by
  unfold chunkSection
  rw [if_pos h]

theorem groupSectionsAux_flatten (sections : List ParsedSection) :
    ∀ (curHier : List String) (curSecs : List ParsedSection),
      ((groupSectionsAux sections curHier curSecs).map Prod.snd).flatten =
        curSecs ++ sections.filter (fun s => s.contentType ≠ ContentType.heading) := by
  induction sections with
  | nil =>
    intro curHier curSecs
    unfold groupSectionsAux
    by_cases h : curSecs = [] <;> simp [h]
  | cons s rest ih =>
    intro curHier curSecs
    unfold groupSectionsAux
    by_cases hhead : s.contentType = ContentType.heading
    · rw [if_pos hhead, List.filter_cons_of_neg (by simp [hhead])]
      by_cases h : curSecs = [] <;> simp [h, ih]
    · rw [if_neg hhead, List.filter_cons_of_pos (by simp [hhead])]
      by_cases hdiff : s.sectionHierarchy ≠ curHier
      · rw [if_pos hdiff]
        by_cases h : curSecs = [] <;> simp [h, ih]
      · rw [if_neg hdiff, ih]
        simp

/-- Claim C2 (amended): when no section exceeds the token budget the
sentence strategy's chunk contents are exactly the section contents, in
order, each exactly once (oversized sections are instead re-joined from
sentences, with overlap-induced duplication); and the hierarchy
strategy's grouping covers exactly the non-HEADING sections, each
exactly once and in order — HEADING section content is omitted from its
chunks. -/
theorem C2_content_coverage :
    (∀ (C : SemanticChunkerCfg) (doc : ParsedDocument) (documentId : String),
        (∀ s ∈ doc.sections, countTokens s.content ≤ C.chunkSize) →
        (semanticChunk C doc documentId).map (fun c => c.content) =
          doc.sections.map (fun s => s.content))
      ∧ (∀ (sections : List ParsedSection),
          ((groupSectionsByHierarchy sections).map Prod.snd).flatten =
            sections.filter (fun s => s.contentType ≠ ContentType.heading)) := by
  constructor
  · intro C doc documentId
    obtain ⟨fn, secs⟩ := doc
    show (∀ s ∈ secs, countTokens s.content ≤ C.chunkSize) →
      (semanticChunk C ⟨fn, secs⟩ documentId).map (fun c => c.content) =
        secs.map (fun s => s.content)
    induction secs with
    | nil => intro _; rfl
    | cons s rest ih =>
      intro hall
      have hs := hall s (List.mem_cons_self ..)
      have ih' := ih (fun t ht => hall t (List.mem_cons_of_mem _ ht))
      unfold semanticChunk at ih' ⊢
      rw [List.map_cons, List.flatten_cons, List.map_append,
        chunkSection_small C documentId s.content s.contentType s.sectionHierarchy
          (sectionMetaPairs s) hs, List.map_cons]
      show _ = s.content :: rest.map (fun s => s.content)
      rw [← ih']
      rfl
  · intro sections
    exact groupSectionsAux_flatten sections [] []

/-- Closed witness for `C2_content_coverage`: for the parsed document of
`"# T\nbody"` (all sections within the default budget) the sentence
strategy reproduces the section contents exactly. -/
theorem C2_content_coverage_witness :
    (semanticChunk {} docHeadingBody "d").map (fun c => c.content) =
      docHeadingBody.sections.map (fun s => s.content) :=
  C2_content_coverage.1 {} docHeadingBody "d" (by decide)

/-! ## Token-budget invariants (C1) -/

theorem sumTokens_nil : sumTokens [] = 0 := rfl

theorem sumTokens_singleton (s : String) : sumTokens [s] = countTokens s := by
  simp [sumTokens]

theorem sumTokens_append (a b : List String) :
    sumTokens (a ++ b) = sumTokens a + sumTokens b := by
  simp [sumTokens]

theorem strIntercalate_singleton (sep t : String) : String.intercalate sep [t] = t := rfl

theorem pySplitWsAux_no_ws (cs : List Char) :
    ∀ (cur : List Char), (∀ c ∈ cur, c.isWhitespace = false) →
      ∀ w ∈ pySplitWsAux cs cur, ∀ c ∈ w.data, c.isWhitespace = false := by
  induction cs with
  | nil =>
    intro cur hcur w hw c hc
    unfold pySplitWsAux at hw
    split at hw
    · simp at hw
    · rw [List.mem_singleton] at hw
      subst hw
      exact hcur c (List.mem_reverse.mp hc)
  | cons ch cs' ih =>
    intro cur hcur w hw c hc
    unfold pySplitWsAux at hw
    split at hw
    · split at hw
      · exact ih [] (by simp) w hw c hc
      · rcases List.mem_cons.mp hw with he | hm
        · subst he
          exact hcur c (List.mem_reverse.mp hc)
        · exact ih [] (by simp) w hm c hc
    · next hnws =>
      refine ih (ch :: cur) ?_ w hw c hc
      intro x hx
      rcases List.mem_cons.mp hx with he | hm
      · subst he
        exact Bool.eq_false_iff.mpr hnws
      · exact hcur x hm

theorem pySplitWs_no_ws (s : String) :
    ∀ w ∈ pySplitWs s, ∀ c ∈ w.data, c.isWhitespace = false :=
  pySplitWsAux_no_ws s.data [] (by simp)

theorem splitOnCharAux_no_sep (sep : Char) (cs : List Char) :
    ∀ (cur : List Char), (∀ c ∈ cur, c ≠ sep) →
      ∀ p ∈ splitOnCharAux sep cs cur, ∀ c ∈ p.data, c ≠ sep := by
  induction cs with
  | nil =>
    intro cur hcur p hp c hc
    unfold splitOnCharAux at hp
    rw [List.mem_singleton] at hp
    subst hp
    exact hcur c (List.mem_reverse.mp hc)
  | cons ch cs' ih =>
    intro cur hcur p hp c hc
    unfold splitOnCharAux at hp
    split at hp
    · rcases List.mem_cons.mp hp with he | hm
      · subst he
        exact hcur c (List.mem_reverse.mp hc)
      · exact ih [] (by simp) p hm c hc
    · next hne =>
      refine ih (ch :: cur) ?_ p hp c hc
      intro x hx
      rcases List.mem_cons.mp hx with he | hm
      · subst he
        exact hne
      · exact hcur x hm

theorem splitLines_no_newline (s : String) :
    ∀ l ∈ splitLines s, ∀ c ∈ l.data, c ≠ '\n' :=
  splitOnCharAux_no_sep '\n' s.data [] (by simp)

theorem splitLongTextAux_groups (cs : Nat) (ws : List String) :
    (∀ w ∈ ws, ∀ c ∈ w.data, c.isWhitespace = false) →
    ∀ (cur : List String) (len : Nat), len = sumTokens cur →
      (sumTokens cur ≤ cs
        ∨ ∃ w, cur = [w] ∧ cs < countTokens w ∧ ∀ c ∈ w.data, c.isWhitespace = false) →
      ∀ t ∈ splitLongTextAux cs ws cur len,
        ∃ g, t = String.intercalate " " g
          ∧ (sumTokens g ≤ cs
              ∨ ∃ w, g = [w] ∧ cs < countTokens w ∧ ∀ c ∈ w.data, c.isWhitespace = false) := by
  induction ws with
  | nil =>
    intro _ cur len hlen hinv t ht
    unfold splitLongTextAux at ht
    split at ht
    · simp at ht
    · rw [List.mem_singleton] at ht
      exact ⟨cur, ht, hinv⟩
  | cons w ws' ih =>
    intro hws cur len hlen hinv t ht
    have hws' : ∀ x ∈ ws', ∀ c ∈ x.data, c.isWhitespace = false :=
      fun x hx => hws x (List.mem_cons_of_mem _ hx)
    have hw0 : ∀ c ∈ w.data, c.isWhitespace = false := hws w (List.mem_cons_self _ _)
    unfold splitLongTextAux at ht
    dsimp only at ht
    split at ht
    · rcases List.mem_append.mp ht with hm | hm
      · split at hm
        · simp at hm
        · rw [List.mem_singleton] at hm
          exact ⟨cur, hm, hinv⟩
      · refine ih hws' [w] _ (by simp [sumTokens]) ?_ t hm
        by_cases hwt : countTokens w ≤ cs
        · left
          simpa [sumTokens] using hwt
        · right
          exact ⟨w, rfl, by omega, hw0⟩
    · next hfit =>
      apply ih hws' (cur ++ [w]) _
        (by simp [sumTokens_append, sumTokens_singleton, hlen]) _ t ht
      left
      rw [sumTokens_append, sumTokens_singleton, ← hlen]
      omega

theorem splitLongText_groups (cs : Nat) (text : String) :
    ∀ t ∈ splitLongText cs text,
      ∃ g, t = String.intercalate " " g
        ∧ (sumTokens g ≤ cs
            ∨ ∃ w, g = [w] ∧ cs < countTokens w ∧ ∀ c ∈ w.data, c.isWhitespace = false) :=
  fun t ht => splitLongTextAux_groups cs (pySplitWs text) (pySplitWs_no_ws text) [] 0 rfl
    (Or.inl (by simp [sumTokens])) t ht

theorem semLoop_groups (C : SemanticChunkerCfg) (ss : List String) :
    ∀ (cur : List String) (len : Nat), len = sumTokens cur →
      sumTokens cur ≤ C.chunkSize + C.chunkOverlap →
      ∀ g ∈ semLoop C ss cur len,
        ∃ gs, String.intercalate " " g = String.intercalate " " gs
          ∧ (sumTokens gs ≤ C.chunkSize + C.chunkOverlap
              ∨ ∃ w, gs = [w] ∧ C.chunkSize < countTokens w
                  ∧ ∀ c ∈ w.data, c.isWhitespace = false) := by
  induction ss with
  | nil =>
    intro cur len hlen hinv g hg
    rw [semLoop_nil] at hg
    split at hg
    · simp at hg
    · rw [List.mem_singleton] at hg
      exact ⟨cur, by rw [hg], Or.inl hinv⟩
  | cons s rest ih =>
    intro cur len hlen hinv g hg
    by_cases hbig : countTokens s > C.chunkSize
    · rw [semLoop_cons_big C s rest cur len hbig] at hg
      rcases List.mem_append.mp hg with hm | hm
      · rcases List.mem_append.mp hm with hm' | hm'
        · split at hm'
          · simp at hm'
          · rw [List.mem_singleton] at hm'
            exact ⟨cur, by rw [hm'], Or.inl hinv⟩
        · obtain ⟨t, htmem, hgt⟩ := List.mem_map.mp hm'
          obtain ⟨gs, hje, hbound⟩ := splitLongText_groups C.chunkSize s t htmem
          refine ⟨gs, ?_, ?_⟩
          · rw [← hgt, strIntercalate_singleton, hje]
          · rcases hbound with h | h
            · exact Or.inl (le_trans h (Nat.le_add_right _ _))
            · exact Or.inr h
      · exact ih [] 0 rfl (by simp [sumTokens]) g hm
    · by_cases hcur : cur = []
      · subst hcur
        have hlen0 : len = 0 := by simpa [sumTokens] using hlen
        have hacc : semLoop C (s :: rest) [] len =
            semLoop C rest ([] ++ [s]) (len + countTokens s) := by
          by_cases hover : len + countTokens s > C.chunkSize
          · exact semLoop_cons_acc C s rest [] len hbig (Or.inr rfl)
          · exact semLoop_cons_acc C s rest [] len hbig (Or.inl hover)
        rw [hacc] at hg
        apply ih ([] ++ [s]) (len + countTokens s)
          (by simp [sumTokens, hlen0]) ?_ g hg
        rw [List.nil_append, sumTokens_singleton]
        omega
      · by_cases hover : len + countTokens s > C.chunkSize
        · rw [semLoop_cons_flush C s rest cur len hbig hover hcur] at hg
          rcases List.mem_cons.mp hg with he | hm
          · exact ⟨cur, by rw [he], Or.inl hinv⟩
          · apply ih (getOverlapSentences C.chunkOverlap cur ++ [s])
              (sumTokens (getOverlapSentences C.chunkOverlap cur) + countTokens s)
              (by rw [sumTokens_append, sumTokens_singleton]) ?_ g hm
            have h1 := getOverlapSentences_sum C.chunkOverlap cur
            rw [sumTokens_append, sumTokens_singleton]
            omega
        · rw [semLoop_cons_acc C s rest cur len hbig (Or.inl hover)] at hg
          apply ih (cur ++ [s]) (len + countTokens s)
            (by rw [sumTokens_append, sumTokens_singleton, hlen]) ?_ g hg
          rw [sumTokens_append, sumTokens_singleton, ← hlen]
          omega

theorem chunkSection_budget (C : SemanticChunkerCfg) (documentId content : String)
    (contentType : ContentType) (hier : List String) (md : List (String × PValue)) :
    ∀ ch ∈ chunkSection C documentId content contentType hier md,
      countTokens ch.content ≤ C.chunkSize
        ∨ ch.contentType = .codeBlock ∨ ch.contentType = .table
        ∨ ∃ ss, ch.content = String.intercalate " " ss
            ∧ (sumTokens ss ≤ C.chunkSize + C.chunkOverlap
                ∨ ∃ w, ss = [w] ∧ C.chunkSize < countTokens w
                    ∧ ∀ c ∈ w.data, c.isWhitespace = false) := by
  intro ch hch
  unfold chunkSection at hch
  by_cases hsmall : countTokens content ≤ C.chunkSize
  · rw [if_pos hsmall, List.mem_singleton] at hch
    subst hch
    exact Or.inl hsmall
  · rw [if_neg hsmall] at hch
    by_cases hct : contentType = ContentType.codeBlock ∨ contentType = ContentType.table
    · rw [if_pos hct, List.mem_singleton] at hch
      subst hch
      rcases hct with h | h
      · exact Or.inr (Or.inl h)
      · exact Or.inr (Or.inr (Or.inl h))
    · rw [if_neg hct] at hch
      obtain ⟨g, hgmem, hgch⟩ := List.mem_map.mp hch
      obtain ⟨gs, hje, hbound⟩ := semLoop_groups C _ [] 0 rfl (by simp [sumTokens]) g hgmem
      subst hgch
      right; right; right
      exact ⟨gs, hje, hbound⟩

theorem splitLargeLinesAux_budget (C : StructureChunkerCfg) (documentId : String)
    (contentType : ContentType) (hier : List String) (lines : List String) :
    (∀ l ∈ lines, ∀ c ∈ l.data, c ≠ '\n') →
    ∀ (curLines : List String) (curTokens : Nat), curTokens = sumTokens curLines →
      (sumTokens curLines ≤ C.chunkSize
        ∨ ∃ l, curLines = [l] ∧ C.chunkSize < countTokens l ∧ ∀ c ∈ l.data, c ≠ '\n') →
      ∀ ch ∈ splitLargeLinesAux C documentId contentType hier lines curLines curTokens,
        ch.sectionHierarchy = hier
          ∧ ∃ parts, ch.content = hierPrefixStr C hier ++ String.intercalate "\n" parts
            ∧ (sumTokens parts ≤ C.chunkSize
                ∨ ∃ l, parts = [l] ∧ C.chunkSize < countTokens l
                    ∧ ∀ c ∈ l.data, c ≠ '\n') := by
  induction lines with
  | nil =>
    intro _ curLines curTokens hlen hinv ch hch
    unfold splitLargeLinesAux at hch
    split at hch
    · simp at hch
    · rw [List.mem_singleton] at hch
      subst hch
      exact ⟨rfl, curLines, rfl, hinv⟩
  | cons line rest ih =>
    intro hlines curLines curTokens hlen hinv ch hch
    have hlines' : ∀ x ∈ rest, ∀ c ∈ x.data, c ≠ '\n' :=
      fun x hx => hlines x (List.mem_cons_of_mem _ hx)
    have hline0 : ∀ c ∈ line.data, c ≠ '\n' := hlines line (List.mem_cons_self _ _)
    unfold splitLargeLinesAux at hch
    dsimp only at hch
    split at hch
    · rcases List.mem_cons.mp hch with he | hm
      · subst he
        exact ⟨rfl, curLines, rfl, hinv⟩
      · refine ih hlines' [line] _ (by simp [sumTokens]) ?_ ch hm
        by_cases hlt : countTokens line ≤ C.chunkSize
        · left
          simpa [sumTokens] using hlt
        · right
          exact ⟨line, rfl, by omega, hline0⟩
    · next hneg =>
      by_cases hcur : curLines = []
      · subst hcur
        have hlen0 : curTokens = 0 := by simpa [sumTokens] using hlen
        refine ih hlines' ([] ++ [line]) _ (by simp [sumTokens, hlen0]) ?_ ch hch
        by_cases hlt : countTokens line ≤ C.chunkSize
        · left
          simpa [sumTokens] using hlt
        · right
          exact ⟨line, by simp, by omega, hline0⟩
      · have hfit : ¬ (curTokens + countTokens line > C.chunkSize) := by
          intro hover
          exact hneg ⟨hover, hcur⟩
        apply ih hlines' (curLines ++ [line]) _
          (by rw [sumTokens_append, sumTokens_singleton, hlen]) _ ch hch
        left
        rw [sumTokens_append, sumTokens_singleton, ← hlen]
        omega

theorem splitLargeContent_budget (C : StructureChunkerCfg) (content : String)
    (contentType : ContentType) (documentId : String) (hier : List String) :
    ∀ ch ∈ splitLargeContent C content contentType documentId hier,
      ch.sectionHierarchy = hier
        ∧ (ch.contentType = .codeBlock ∨ ch.contentType = .table
          ∨ ∃ parts,
              (ch.content = hierPrefixStr C hier ++ String.intercalate "\n\n" parts
                ∨ ch.content = hierPrefixStr C hier ++ String.intercalate "\n" parts)
            ∧ (sumTokens parts ≤ C.chunkSize
                ∨ ∃ l, parts = [l] ∧ C.chunkSize < countTokens l
                    ∧ ∀ c ∈ l.data, c ≠ '\n')) := by
  intro ch hch
  unfold splitLargeContent at hch
  split at hch
  · rw [List.mem_singleton] at hch
    subst hch
    next hct =>
    rcases hct with h | h
    · exact ⟨rfl, Or.inl h⟩
    · exact ⟨rfl, Or.inr (Or.inl h)⟩
  · obtain ⟨hhier, parts, hcontent, hbound⟩ :=
      splitLargeLinesAux_budget C documentId contentType hier _
        (splitLines_no_newline content) [] 0 rfl
        (Or.inl (by simp [sumTokens])) ch hch
    exact ⟨hhier, Or.inr (Or.inr ⟨parts, Or.inr hcontent, hbound⟩)⟩

theorem structLoop_budget (C : StructureChunkerCfg) (documentId : String)
    (hier : List String) (parts : List (String × ContentType)) :
    ∀ (curContent : List String) (curTokens : Nat) (curTypes : List ContentType),
      curTokens = sumTokens curContent → sumTokens curContent ≤ C.chunkSize →
      ∀ ch ∈ structLoop C documentId hier parts curContent curTokens curTypes,
        ch.sectionHierarchy = hier
          ∧ (ch.contentType = .codeBlock ∨ ch.contentType = .table
            ∨ ∃ ps,
                (ch.content = hierPrefixStr C hier ++ String.intercalate "\n\n" ps
                  ∨ ch.content = hierPrefixStr C hier ++ String.intercalate "\n" ps)
              ∧ (sumTokens ps ≤ C.chunkSize
                  ∨ ∃ l, ps = [l] ∧ C.chunkSize < countTokens l
                      ∧ ∀ c ∈ l.data, c ≠ '\n')) := by
  induction parts with
  | nil =>
    intro curContent curTokens curTypes hlen hinv ch hch
    unfold structLoop at hch
    split at hch
    · simp at hch
    · rw [List.mem_singleton] at hch
      subst hch
      exact ⟨rfl, Or.inr (Or.inr ⟨curContent, Or.inl rfl, Or.inl hinv⟩)⟩
  | cons p rest ih =>
    obtain ⟨content, contentType⟩ := p
    intro curContent curTokens curTypes hlen hinv ch hch
    unfold structLoop at hch
    dsimp only at hch
    split at hch
    · rcases List.mem_append.mp hch with hm | hm
      · rcases List.mem_append.mp hm with hm' | hm'
        · split at hm'
          · simp at hm'
          · rw [List.mem_singleton] at hm'
            subst hm'
            exact ⟨rfl, Or.inr (Or.inr ⟨curContent, Or.inl rfl, Or.inl hinv⟩)⟩
        · exact splitLargeContent_budget C content contentType documentId hier ch hm'
      · exact ih [] 0 [] rfl (by simp [sumTokens]) ch hm
    · next hnotbig =>
      split at hch
      · rcases List.mem_cons.mp hch with he | hm
        · subst he
          exact ⟨rfl, Or.inr (Or.inr ⟨curContent, Or.inl rfl, Or.inl hinv⟩)⟩
        · apply ih [content] _ [contentType] (by simp [sumTokens]) _ ch hm
          rw [sumTokens_singleton]
          omega
      · next hneg =>
        by_cases hcur : curContent = []
        · subst hcur
          have hlen0 : curTokens = 0 := by simpa [sumTokens] using hlen
          apply ih ([] ++ [content]) (curTokens + countTokens content)
            (curTypes ++ [contentType]) (by simp [sumTokens, hlen0]) ?_ ch hch
          rw [List.nil_append, sumTokens_singleton]
          omega
        · have hfit : ¬ (curTokens + countTokens content > C.chunkSize) := by
            intro hover
            exact hneg ⟨hover, hcur⟩
          apply ih (curContent ++ [content]) _ (curTypes ++ [contentType])
            (by rw [sumTokens_append, sumTokens_singleton, hlen]) _ ch hch
          rw [sumTokens_append, sumTokens_singleton, ← hlen]
          omega

theorem chunkSectionGroup_budget (C : StructureChunkerCfg)
    (sections : List ParsedSection) (documentId : String) (hier : List String) :
    ∀ ch ∈ chunkSectionGroup C sections documentId hier,
      ch.sectionHierarchy = hier
        ∧ (ch.contentType = .codeBlock ∨ ch.contentType = .table
          ∨ ∃ ps,
              (ch.content = hierPrefixStr C hier ++ String.intercalate "\n\n" ps
                ∨ ch.content = hierPrefixStr C hier ++ String.intercalate "\n" ps)
            ∧ (sumTokens ps ≤ C.chunkSize
                ∨ ∃ l, ps = [l] ∧ C.chunkSize < countTokens l
                    ∧ ∀ c ∈ l.data, c ≠ '\n')) := by
  intro ch hch
  unfold chunkSectionGroup at hch
  dsimp only at hch
  split at hch
  · rw [List.mem_singleton] at hch
    subst hch
    next hsmall =>
    refine ⟨rfl, Or.inr (Or.inr ⟨_, Or.inl rfl, Or.inl ?_⟩)⟩
    simpa using hsmall
  · exact structLoop_budget C documentId hier _ [] 0 [] rfl (by simp [sumTokens]) ch hch

/-- Claim C1 (amended): every chunk's content is within the token budget
*as accumulated by the chunker*: a sentence-strategy chunk is either a
section within budget, an atomic CODE_BLOCK/TABLE section, or a
`" "`-join of units whose summed token estimates are ≤
`chunk_size + chunk_overlap` (the carried overlap may add up to
`chunk_overlap` on top of the budget) unless it is a *single
whitespace-free word* whose own token estimate exceeds `chunk_size`
(such a word is indivisible for the word-packer); a hierarchy-strategy
chunk is atomic (CODE_BLOCK/TABLE) or, after the injected hierarchy
prefix, a `"\n\n"`-join of parts or a `"\n"`-join of lines whose summed
token estimates are ≤ `chunk_size` unless it is a *single newline-free
line* whose own token estimate exceeds `chunk_size` (such a line is
indivisible for the line-packer).  The token count of the joined content
itself can exceed `chunk_size` by the prefix and separator overhead (see
the counterexample). -/
theorem C1_chunk_token_budget :
    (∀ (C : SemanticChunkerCfg) (doc : ParsedDocument) (documentId : String),
        ∀ ch ∈ semanticChunk C doc documentId,
          countTokens ch.content ≤ C.chunkSize
            ∨ ch.contentType = .codeBlock ∨ ch.contentType = .table
            ∨ ∃ ss, ch.content = String.intercalate " " ss
                ∧ (sumTokens ss ≤ C.chunkSize + C.chunkOverlap
                    ∨ ∃ w, ss = [w] ∧ C.chunkSize < countTokens w
                        ∧ ∀ c ∈ w.data, c.isWhitespace = false))
      ∧ (∀ (C : StructureChunkerCfg) (doc : ParsedDocument) (documentId : String),
          ∀ ch ∈ structureChunk C doc documentId,
            ch.contentType = .codeBlock ∨ ch.contentType = .table
              ∨ ∃ ps,
                  (ch.content = hierPrefixStr C ch.sectionHierarchy
                      ++ String.intercalate "\n\n" ps
                    ∨ ch.content = hierPrefixStr C ch.sectionHierarchy
                      ++ String.intercalate "\n" ps)
                ∧ (sumTokens ps ≤ C.chunkSize
                    ∨ ∃ l, ps = [l] ∧ C.chunkSize < countTokens l
                        ∧ ∀ c ∈ l.data, c ≠ '\n')) := by
  constructor
  · intro C doc documentId ch hch
    unfold semanticChunk at hch
    obtain ⟨l, hl, hchl⟩ := List.mem_flatten.mp hch
    obtain ⟨s, _, hfl⟩ := List.mem_map.mp hl
    exact chunkSection_budget C documentId s.content s.contentType s.sectionHierarchy
      (sectionMetaPairs s) ch (hfl ▸ hchl)
  · intro C doc documentId ch hch
    unfold structureChunk at hch
    obtain ⟨l, hl, hchl⟩ := List.mem_flatten.mp hch
    obtain ⟨g, _, hfl⟩ := List.mem_map.mp hl
    obtain ⟨hhier, hrest⟩ := chunkSectionGroup_budget C g.2 documentId g.1 ch (hfl ▸ hchl)
    rw [hhier]
    exact hrest

/-- Closed witness for `C1_chunk_token_budget`: the single chunk the
sentence strategy produces for `docBlank` under the default
configuration satisfies the budget disjunction. -/
theorem C1_chunk_token_budget_witness :
    countTokens (Chunk.create "doc" "      " ContentType.text [] []).content ≤
        SemanticChunkerCfg.chunkSize {}
      ∨ (Chunk.create "doc" "      " ContentType.text [] []).contentType = .codeBlock
      ∨ (Chunk.create "doc" "      " ContentType.text [] []).contentType = .table
      ∨ ∃ ss, (Chunk.create "doc" "      " ContentType.text [] []).content =
            String.intercalate " " ss
          ∧ (sumTokens ss ≤ SemanticChunkerCfg.chunkSize {}
                + SemanticChunkerCfg.chunkOverlap {}
              ∨ ∃ w, ss = [w] ∧ SemanticChunkerCfg.chunkSize {} < countTokens w
                  ∧ ∀ c ∈ w.data, c.isWhitespace = false) :=
  C1_chunk_token_budget.1 {} docBlank "doc"
    (Chunk.create "doc" "      " ContentType.text [] []) (by decide)

/-! ## Reciprocal rank fusion (C4) -/

theorem pyDictGetD_eq {α : Type} (m : List (String × α)) (k : String) (d : α) :
    pyDictGetD m k d = (dictGet? m k).getD d := by
  unfold pyDictGetD dictGet?
  cases m.find? (fun kv => kv.1 = k) <;> simp

theorem pyDictGetD_pyDictSet {α : Type} (m : List (String × α)) (k k' : String)
    (v d : α) :
    pyDictGetD (pyDictSet m k v) k' d = if k' = k then v else pyDictGetD m k' d := by
  rw [pyDictGetD_eq, dictGet?_pyDictSet]
  by_cases h : k' = k <;> simp [h, pyDictGetD_eq]

theorem pyDictHas_iff {α : Type} (m : List (String × α)) (k : String) :
    pyDictHas m k = true ↔ (dictGet? m k).isSome = true := by
  unfold pyDictHas dictGet?
  cases m.find? (fun kv => kv.1 = k) <;> simp

theorem pyDictHas_pyDictSet {α : Type} (m : List (String × α)) (k k' : String) (v : α) :
    pyDictHas (pyDictSet m k v) k' = true ↔ (k' = k ∨ pyDictHas m k' = true) := by
  rw [pyDictHas_iff, dictGet?_pyDictSet]
  by_cases h : k' = k <;> simp [h, pyDictHas_iff]

theorem pyDictSet_forall {α : Type} (P : String × α → Prop) (m : List (String × α))
    (k : String) (v : α) (hm : ∀ kv ∈ m, P kv) (hkv : P (k, v)) :
    ∀ kv ∈ pyDictSet m k v, P kv := by
  induction m with
  | nil => simpa [pyDictSet] using hkv
  | cons x rest ih =>
    obtain ⟨a, b⟩ := x
    show ∀ kv ∈ (if a = k then (a, v) :: rest else (a, b) :: pyDictSet rest k v), P kv
    by_cases h : a = k
    · rw [if_pos h]
      intro kv hkv'
      rcases List.mem_cons.mp hkv' with he | hmem
      · exact he ▸ (h ▸ hkv)
      · exact hm kv (List.mem_cons_of_mem _ hmem)
    · rw [if_neg h]
      intro kv hkv'
      rcases List.mem_cons.mp hkv' with he | hmem
      · exact he ▸ hm (a, b) (List.mem_cons_self ..)
      · exact ih (fun kv h' => hm kv (List.mem_cons_of_mem _ h')) kv hmem

theorem rrfProcessAux_rmap_inv (w : ℚ) (k : Nat) (keep : Bool)
    (results : List RetrievalResult) :
    ∀ (rank : Nat) (st : List (String × ℚ) × List (String × RetrievalResult)),
      (∀ kv ∈ st.2, kv.2.chunkId = kv.1) →
      ∀ kv ∈ (rrfProcessAux w k keep results rank st).2, kv.2.chunkId = kv.1 := by
  induction results with
  | nil => intro rank st h; exact h
  | cons r rest ih =>
    intro rank st h
    apply ih (rank + 1)
    dsimp only
    split
    · exact h
    · exact pyDictSet_forall _ st.2 r.chunkId r h rfl

theorem findIdx?_none_of_all {α : Type} (p : α → Bool) (l : List α)
    (h : ∀ x ∈ l, p x = false) : ∀ (i : Nat), l.findIdx? p i = none := by
  induction l with
  | nil => intro i; rfl
  | cons x xs ih =>
    intro i
    rw [List.findIdx?_cons, if_neg (by simp [h x (List.mem_cons_self ..)])]
    exact ih (fun y hy => h y (List.mem_cons_of_mem _ hy)) (i + 1)

theorem rrfProcessAux_scores (w : ℚ) (k : Nat) (keep : Bool)
    (results : List RetrievalResult) :
    ∀ (rank : Nat) (st : List (String × ℚ) × List (String × RetrievalResult))
      (cid : String), (results.map (fun r => r.chunkId)).Nodup →
      pyDictGetD (rrfProcessAux w k keep results rank st).1 cid 0 =
        pyDictGetD st.1 cid 0 +
          (match results.findIdx? (fun r => r.chunkId = cid) rank with
           | some i => w / ((k : ℚ) + (i : ℚ) + 1)
           | none => 0) := by
  induction results with
  | nil =>
    intro rank st cid _
    simp [rrfProcessAux, List.findIdx?]
  | cons r rest ih =>
    intro rank st cid hnodup
    rw [List.map_cons, List.nodup_cons] at hnodup
    obtain ⟨hhead, htail⟩ := hnodup
    rw [List.findIdx?_cons]
    conv_lhs => rw [rrfProcessAux]
    rw [ih (rank + 1) _ cid htail]
    by_cases hc : r.chunkId = cid
    · subst hc
      have hrest : rest.findIdx? (fun x => x.chunkId = r.chunkId) (rank + 1) = none := by
        apply findIdx?_none_of_all
        intro x hx
        simp only [decide_eq_false_iff_not]
        intro he
        exact hhead (he ▸ List.mem_map_of_mem _ hx)
      rw [hrest, pyDictGetD_pyDictSet, if_pos rfl, if_pos (by simp)]
      ring
    · rw [pyDictGetD_pyDictSet, if_neg (fun e => hc e.symm), if_neg (by simp [hc])]

theorem rrfProcessAux_has_scores (w : ℚ) (k : Nat) (keep : Bool)
    (results : List RetrievalResult) :
    ∀ (rank : Nat) (st : List (String × ℚ) × List (String × RetrievalResult))
      (cid : String),
      pyDictHas (rrfProcessAux w k keep results rank st).1 cid = true ↔
        (pyDictHas st.1 cid = true ∨ cid ∈ results.map (fun r => r.chunkId)) := by
  induction results with
  | nil =>
    intro rank st cid
    simp [rrfProcessAux]
  | cons r rest ih =>
    intro rank st cid
    conv_lhs => rw [rrfProcessAux]
    rw [ih (rank + 1)]
    dsimp only
    rw [pyDictHas_pyDictSet]
    simp only [List.map_cons, List.mem_cons]
    tauto

theorem rrfProcessAux_scores_sub_rmap (w : ℚ) (k : Nat) (keep : Bool)
    (results : List RetrievalResult) :
    ∀ (rank : Nat) (st : List (String × ℚ) × List (String × RetrievalResult)),
      (∀ cid, pyDictHas st.1 cid = true → pyDictHas st.2 cid = true) →
      ∀ cid, pyDictHas (rrfProcessAux w k keep results rank st).1 cid = true →
        pyDictHas (rrfProcessAux w k keep results rank st).2 cid = true := by
  induction results with
  | nil => intro rank st h; exact h
  | cons r rest ih =>
    intro rank st h
    apply ih (rank + 1)
    intro cid hcid
    rw [pyDictHas_pyDictSet] at hcid
    dsimp only
    split
    · next hkeep =>
      rcases hcid with he | hmem
      · exact he ▸ hkeep.2
      · exact h cid hmem
    · rw [pyDictHas_pyDictSet]
      rcases hcid with he | hmem
      · exact Or.inl he
      · exact Or.inr (h cid hmem)

theorem insertDesc_perm (score : String → ℚ) (x : String) (l : List String) :
    (insertDesc score x l).Perm (x :: l) := by
  induction l with
  | nil => exact List.Perm.refl _
  | cons y ys ih =>
    unfold insertDesc
    split
    · exact List.Perm.refl _
    · exact (ih.cons y).trans (List.Perm.swap x y ys)

theorem mem_insertDesc (score : String → ℚ) (x z : String) (l : List String)
    (hz : z ∈ insertDesc score x l) : z = x ∨ z ∈ l := by
  have := (insertDesc_perm score x l).mem_iff.mp hz
  simpa using this

theorem insertDesc_pairwise (score : String → ℚ) (x : String) (l : List String)
    (h : l.Pairwise (fun a b => score b ≤ score a)) :
    (insertDesc score x l).Pairwise (fun a b => score b ≤ score a) := by
  induction l with
  | nil => simp [insertDesc]
  | cons y ys ih =>
    rw [List.pairwise_cons] at h
    obtain ⟨hy, hys⟩ := h
    unfold insertDesc
    split
    · next hgt =>
      rw [List.pairwise_cons]
      refine ⟨?_, List.pairwise_cons.mpr ⟨hy, hys⟩⟩
      intro z hz
      rcases List.mem_cons.mp hz with he | hm
      · exact he ▸ le_of_lt hgt
      · exact le_trans (hy z hm) (le_of_lt hgt)
    · next hle =>
      rw [List.pairwise_cons]
      refine ⟨?_, ih hys⟩
      intro z hz
      rcases mem_insertDesc score x z ys hz with he | hm
      · exact he ▸ (not_lt.mp hle)
      · exact hy z hm

theorem stableSortDesc_pairwise (score : String → ℚ) (l : List String) :
    (stableSortDesc score l).Pairwise (fun a b => score b ≤ score a) := by
  suffices h : ∀ (acc : List String), acc.Pairwise (fun a b => score b ≤ score a) →
      (l.foldl (fun acc x => insertDesc score x acc) acc).Pairwise
        (fun a b => score b ≤ score a) from h [] (by simp)
  induction l with
  | nil => intro acc hacc; exact hacc
  | cons x rest ih =>
    intro acc hacc
    exact ih _ (insertDesc_pairwise score x acc hacc)

theorem mem_stableSortDesc (score : String → ℚ) (l : List String) (z : String)
    (hz : z ∈ l) : z ∈ stableSortDesc score l := by
  suffices h : ∀ (l acc : List String), z ∈ l ∨ z ∈ acc →
      z ∈ l.foldl (fun acc x => insertDesc score x acc) acc from h l [] (Or.inl hz)
  intro l
  induction l with
  | nil =>
    intro acc h
    rcases h with h | h
    · simp at h
    · simpa using h
  | cons x rest ih =>
    intro acc h
    show z ∈ rest.foldl (fun acc x => insertDesc score x acc) (insertDesc score x acc)
    apply ih
    rcases h with h | h
    · rcases List.mem_cons.mp h with he | hm
      · refine Or.inr ((insertDesc_perm score x acc).mem_iff.mpr ?_)
        rw [he]
        exact List.mem_cons_self ..
      · exact Or.inl hm
    · exact Or.inr ((insertDesc_perm score x acc).mem_iff.mpr
        (List.mem_cons_of_mem _ h))

/-- Claim C4: with duplicate-free candidate lists, every fused result is
tagged `hybrid` and carries exactly the spec score
`Σ_lists weight / (rrf_k + rank + 1)` (0 from a list the chunk is absent
from); the returned list is ordered by non-increasing fused score; and
every candidate chunk of either list appears in the output. -/
theorem C4_rrf_fusion (C : HybridCfg) (dense sparse : List RetrievalResult)
    (hd : (dense.map (fun r => r.chunkId)).Nodup)
    (hs : (sparse.map (fun r => r.chunkId)).Nodup) :
    (∀ r ∈ reciprocalRankFusion C dense sparse,
        r.source = "hybrid" ∧ r.score = rrfSpecScore C dense sparse r.chunkId)
      ∧ (reciprocalRankFusion C dense sparse).Pairwise (fun a b => b.score ≤ a.score)
      ∧ ∀ cid ∈ (dense ++ sparse).map (fun r => r.chunkId),
          ∃ r ∈ reciprocalRankFusion C dense sparse, r.chunkId = cid := by
  have hscore : ∀ cid,
      pyDictGetD (rrfProcess C.sparseWeight C.rrfK true sparse
        (rrfProcess C.denseWeight C.rrfK false dense ([], []))).1 cid 0 =
        rrfSpecScore C dense sparse cid := by
    intro cid
    unfold rrfProcess
    rw [rrfProcessAux_scores C.sparseWeight C.rrfK true sparse 0 _ cid hs,
      rrfProcessAux_scores C.denseWeight C.rrfK false dense 0 _ cid hd]
    simp only [pyDictGetD, List.find?]
    unfold rrfSpecScore rankContribution
    cases dense.findIdx? (fun r => r.chunkId = cid) 0 <;>
      cases sparse.findIdx? (fun r => r.chunkId = cid) 0 <;>
      simp [add_assoc]
  have hinv : ∀ kv ∈ (rrfProcess C.sparseWeight C.rrfK true sparse
      (rrfProcess C.denseWeight C.rrfK false dense ([], []))).2, kv.2.chunkId = kv.1 := by
    apply rrfProcessAux_rmap_inv
    apply rrfProcessAux_rmap_inv
    simp
  refine ⟨?_, ?_, ?_⟩
  · intro r hr
    unfold reciprocalRankFusion at hr
    obtain ⟨cid, _, hf⟩ := List.mem_filterMap.mp hr
    obtain ⟨kv, hfind, hr'⟩ := Option.map_eq_some'.mp hf
    have hkey : kv.1 = cid := by simpa using List.find?_some hfind
    have hcid : r.chunkId = cid := by
      rw [← hr']
      show kv.2.chunkId = cid
      rw [hinv kv (List.mem_of_find?_eq_some hfind), hkey]
    have hsrc : r.source = "hybrid" := by rw [← hr']
    have hscr : r.score = pyDictGetD (rrfProcess C.sparseWeight C.rrfK true sparse
        (rrfProcess C.denseWeight C.rrfK false dense ([], []))).1 cid 0 := by
      rw [← hr']
    exact ⟨hsrc, by rw [hscr, hscore cid, hcid]⟩
  · unfold reciprocalRankFusion
    apply List.Pairwise.filterMap
      (R := fun c1 c2 =>
        pyDictGetD (rrfProcess C.sparseWeight C.rrfK true sparse
          (rrfProcess C.denseWeight C.rrfK false dense ([], []))).1 c2 0 ≤
        pyDictGetD (rrfProcess C.sparseWeight C.rrfK true sparse
          (rrfProcess C.denseWeight C.rrfK false dense ([], []))).1 c1 0)
    · intro a a' hle b hb b' hb'
      obtain ⟨kv, _, hbe⟩ := Option.map_eq_some'.mp hb
      obtain ⟨kv', _, hbe'⟩ := Option.map_eq_some'.mp hb'
      rw [← hbe, ← hbe']
      exact hle
    · exact stableSortDesc_pairwise _ _
  · intro cid hcid
    have hhas : pyDictHas (rrfProcess C.sparseWeight C.rrfK true sparse
        (rrfProcess C.denseWeight C.rrfK false dense ([], []))).1 cid = true := by
      unfold rrfProcess
      rw [rrfProcessAux_has_scores, rrfProcessAux_has_scores]
      rw [List.map_append] at hcid
      rcases List.mem_append.mp hcid with h | h
      · exact Or.inl (Or.inr h)
      · exact Or.inr h
    have hrmap : pyDictHas (rrfProcess C.sparseWeight C.rrfK true sparse
        (rrfProcess C.denseWeight C.rrfK false dense ([], []))).2 cid = true := by
      revert hhas
      unfold rrfProcess
      apply rrfProcessAux_scores_sub_rmap
      apply rrfProcessAux_scores_sub_rmap
      intro c hc
      simp [pyDictHas] at hc
    have hmemkeys : cid ∈ (rrfProcess C.sparseWeight C.rrfK true sparse
        (rrfProcess C.denseWeight C.rrfK false dense ([], []))).1.map Prod.fst := by
      unfold pyDictHas at hhas
      rw [Option.isSome_iff_exists] at hhas
      obtain ⟨kv, hkv⟩ := hhas
      have := List.mem_of_find?_eq_some hkv
      have hkey : kv.1 = cid := by simpa using List.find?_some hkv
      exact hkey ▸ List.mem_map_of_mem _ this
    unfold pyDictHas at hrmap
    rw [Option.isSome_iff_exists] at hrmap
    obtain ⟨kv, hkv⟩ := hrmap
    have hkey : kv.1 = cid := by simpa using List.find?_some hkv
    refine ⟨{ kv.2 with
        score := pyDictGetD (rrfProcess C.sparseWeight C.rrfK true sparse
          (rrfProcess C.denseWeight C.rrfK false dense ([], []))).1 cid 0,
        source := "hybrid" }, ?_, ?_⟩
    · unfold reciprocalRankFusion
      apply List.mem_filterMap.mpr
      exact ⟨cid, mem_stableSortDesc _ _ cid hmemkeys, by rw [hkv]; rfl⟩
    · show kv.2.chunkId = cid
      rw [hinv kv (List.mem_of_find?_eq_some hkv), hkey]

/-- Closed witness for `C4_rrf_fusion`: fusing the concrete dense list
`[resA, resB]` with the sparse list `[resC]` yields a result for chunk
`"a"`. -/
theorem C4_rrf_fusion_witness :
    ∃ r ∈ reciprocalRankFusion {} [resA, resB] [resC], r.chunkId = "a" :=
  (C4_rrf_fusion {} [resA, resB] [resC] (by decide) (by decide)).2.2 "a" (by decide)

end SmartDoc
